import Mathlib

/-
Verification of the generate-execute-diagnose-retry loop of the browser
automation script (src/sample.py).

Text is modelled as List Char.  The deterministic post-processing of the
translator response in generate_code_from_prompt (lines 35-42 of the source),
the rewrite and degenerate-generation check in main (lines 82-86), and the
recursive execute/retry loop run_automation (lines 45-76) are embedded below.
External effects (the translator network call, the browser substrate, the
operator prompts) are modelled by a Behavior record supplying their results;
run_automation is given as a fuel-indexed trace semantics, where fuel
exhaustion at every fuel value models divergence.
-/

namespace Automate

/-! ## Basic text primitives (Python string operations on List Char) -/

/-- Whitespace characters stripped by Python's str.strip (ASCII subset). -/
def pyWhitespace (c : Char) : Bool :=
  c = ' ' || c = '\t' || c = '\n' || c = '\r' || c = '\x0b' || c = '\x0c'

/-- Python str.strip: remove leading whitespace. -/
def stripLeft (s : List Char) : List Char := s.dropWhile pyWhitespace

/-- Python str.strip: remove trailing whitespace. -/
def stripRight (s : List Char) : List Char :=
  (s.reverse.dropWhile pyWhitespace).reverse

/-- Python str.strip (both ends). -/
def strip (s : List Char) : List Char := stripRight (stripLeft s)

/-- Check that p is a literal prefix of s (Python str.startswith). -/
def startsWithL : List Char → List Char → Bool
  | [], _ => true
  | _ :: _, [] => false
  | p :: ps, c :: cs => p == c && startsWithL ps cs

/-- Substring containment (Python's `needle in haystack`). -/
def hasSub (p : List Char) : List Char → Bool
  | [] => p.isEmpty
  | c :: t => startsWithL p (c :: t) || hasSub p t

/-- The backtick character (code point 96). -/
def btick : Char := Char.ofNat 96

/-- Three backticks: the fence marker removed by the normalizer. -/
def tripleL : List Char := [btick, btick, btick]

/-- The fence marker with language tag, matched first by the regex
    three-backticks-optionally-followed-by-python in line 36. -/
def fencePyL : List Char := tripleL ++ ['p', 'y', 't', 'h', 'o', 'n']

/-- Embedding of line 36 of the source: the regex substitution deleting every
    occurrence of the fence marker, preferring the python-tagged form, scanning
    left to right over non-overlapping matches. -/
def subFence : List Char → List Char
  | c1 :: c2 :: c3 :: c4 :: c5 :: c6 :: c7 :: c8 :: c9 :: rest =>
    if c1 = btick ∧ c2 = btick ∧ c3 = btick then
      if c4 = 'p' ∧ c5 = 'y' ∧ c6 = 't' ∧ c7 = 'h' ∧ c8 = 'o' ∧ c9 = 'n' then
        subFence rest
      else subFence (c4 :: c5 :: c6 :: c7 :: c8 :: c9 :: rest)
    else c1 :: subFence (c2 :: c3 :: c4 :: c5 :: c6 :: c7 :: c8 :: c9 :: rest)
  | c1 :: c2 :: c3 :: rest =>
    if c1 = btick ∧ c2 = btick ∧ c3 = btick then subFence rest
    else c1 :: subFence (c2 :: c3 :: rest)
  | c1 :: rest => c1 :: subFence rest
  | [] => []

/-- Embedding of the replace in line 37 of the source: delete every remaining
    occurrence of three backticks (Python str.replace semantics: left to right,
    non-overlapping, continue after each match). -/
def removeTriple : List Char → List Char
  | c1 :: c2 :: c3 :: rest =>
    if c1 = btick ∧ c2 = btick ∧ c3 = btick then removeTriple rest
    else c1 :: removeTriple (c2 :: c3 :: rest)
  | c1 :: rest => c1 :: removeTriple rest
  | [] => []

/-- The cleanup pipeline of lines 35-37: strip, remove fence markers,
    remove leftover triples, strip again. -/
def cleanText (raw : List Char) : List Char :=
  strip (removeTriple (subFence (strip raw)))

/-- The declared entry-point header checked in line 39. -/
def headerL : List Char :=
  ['a', 's', 'y', 'n', 'c', ' ', 'd', 'e', 'f', ' ', 'r', 'u', 'n',
   '(', 'p', 'a', 'g', 'e', ')', ':']

/-- Line-break characters recognised by Python str.splitlines
    (newline, carriage return, vertical tab, form feed). -/
def isLineBreak (c : Char) : Bool :=
  c = '\n' || c = '\r' || c = '\x0b' || c = '\x0c'

/-- Helper for splitlines: accumulate the current line (reversed); a carriage
    return directly followed by a newline counts as a single line boundary. -/
def splitlinesAux : List Char → List Char → List (List Char)
  | [], cur => if cur.isEmpty then [] else [cur.reverse]
  | c :: rest, cur =>
    if isLineBreak c then
      match rest with
      | d :: rest2 =>
        if c = '\r' ∧ d = '\n' then cur.reverse :: splitlinesAux rest2 []
        else cur.reverse :: splitlinesAux (d :: rest2) []
      | [] => cur.reverse :: splitlinesAux [] []
    else splitlinesAux rest (c :: cur)

/-- Python str.splitlines: split at line boundaries, no trailing empty line
    for a trailing terminator, empty list for the empty string. -/
def splitlines (s : List Char) : List (List Char) := splitlinesAux s []

/-- Four spaces: the indentation prepended to every wrapped line in line 40. -/
def indent4 : List Char := [' ', ' ', ' ', ' ']

/-- Embedding of the generator expression in line 40: indent every line by
    four spaces and join the lines with newlines. -/
def joinIndented : List (List Char) → List Char
  | [] => []
  | [l] => indent4 ++ l
  | l :: rest => indent4 ++ l ++ '\n' :: joinIndented rest

/-- Line 40: prepend the synthesized entry-point header to the indented
    re-joined lines of the cleaned text. -/
def wrapRoutine (c : List Char) : List Char :=
  headerL ++ '\n' :: joinIndented (splitlines c)

/-- Embedding of lines 35-42 of generate_code_from_prompt: the deterministic
    normalization applied to the translator response text (the model call
    itself is external; its response text is this function's argument). -/
def generate_code_from_prompt (responseText : List Char) : List Char :=
  if startsWithL headerL (cleanText responseText) then cleanText responseText
  else wrapRoutine (cleanText responseText)

/-- The substring rewritten by main in line 82. -/
def fillInL : List Char :=
  ['f', 'i', 'l', 'l', '(', '"', 'i', 'n', 'p', 'u', 't', '[', 'n', 'a', 'm', 'e']

/-- The replacement substring of line 82. -/
def fillOutL : List Char :=
  ['f', 'i', 'l', 'l', '(', '"', 't', 'e', 'x', 't', 'a', 'r', 'e', 'a',
   '[', 'n', 'a', 'm', 'e']

/-- Embedding of line 82 of main: Python str.replace of every occurrence of
    the input-selector substring by the textarea-selector substring (left to
    right, non-overlapping, scanning continues after each replacement). -/
def replaceFill : List Char → List Char
  | c1 :: c2 :: c3 :: c4 :: c5 :: c6 :: c7 :: c8 :: c9 :: c10 :: c11 :: c12
      :: c13 :: c14 :: c15 :: c16 :: rest =>
    if [c1, c2, c3, c4, c5, c6, c7, c8, c9, c10, c11, c12, c13, c14, c15, c16]
        = fillInL then
      fillOutL ++ replaceFill rest
    else
      c1 :: replaceFill (c2 :: c3 :: c4 :: c5 :: c6 :: c7 :: c8 :: c9 :: c10
        :: c11 :: c12 :: c13 :: c14 :: c15 :: c16 :: rest)
  | c1 :: rest => c1 :: replaceFill rest
  | [] => []

/-- The no-op marker checked by main in line 84 (substring containment). -/
def passL : List Char := ['p', 'a', 's', 's']

/-- Lowercase conversion (ASCII, as applied to the y/n prompt answers). -/
def toLowerL (s : List Char) : List Char := s.map Char.toLower

/-- Embedding of input().strip().lower() from lines 68 and 91. -/
def answerNorm (s : List Char) : List Char := toLowerL (strip s)

/-- The affirmative answer compared against in lines 69 and 91. -/
def yesL : List Char := ['y']

/-! ## Execution model

run_automation (lines 45-76) is embedded as a fuel-indexed trace semantics.
A Behavior record supplies the outcome of every external effect: the
translator response text for each generation, whether the exec of the routine
raises at each attempt, whether the screenshot call raises, the operator's
answers, and whether each browser-resource acquisition step raises.  Faults
that the Python code would let propagate out of run_automation are returned
as an EscFault value; translator calls and the blocking input() calls are
modelled as total.  Fuel counts nesting depth: a result of none for every
fuel value models the non-terminating (unboundedly recursive) executions. -/

/-- Results of all external effects during one program run.  Attempt 0 is the
    initial execution started by main; attempt k+1 is the k+1-st nested retry.
    rawGen k is the translator response text used for attempt k's routine. -/
structure Behavior where
  rawGen : Nat → List Char
  execFault : Nat → Option (List Char)
  shotFault : Nat → Bool
  retryAnswer : Nat → List Char
  launchFail : Nat → Bool
  contextFail : Nat → Bool
  pageFail : Nat → Bool
  runAnswer : List Char

/-- Observable steps of run_automation, tagged with the attempt index. -/
inductive Event where
  | launch (k : Nat)
  | newContext (k : Nat)
  | newPage (k : Nat)
  | execRun (k : Nat) (code : List Char)
  | execOk (k : Nat)
  | execCaught (k : Nat) (msg : List Char)
  | screenshotSaved (k : Nat) (path : List Char)
  | retryPrompt (k : Nat) (answer : List Char)
  | genRetryCode (k : Nat) (code : List Char)
  | browserClose (k : Nat)
  deriving DecidableEq

/-- A fault that propagates out of run_automation uncaught: a resource
    acquisition fault (step 0 = launch, 1 = new_context, 2 = new_page, raised
    in lines 47-49 outside the try block) or a screenshot fault raised inside
    the except block in line 65.  Faults raised by the routine itself are
    always caught by the except clause in line 62 and never appear here. -/
inductive EscFault where
  | acquire (k : Nat) (step : Nat)
  | screenshot (k : Nat)
  deriving DecidableEq

/-- The fixed evidence path of line 64, overwritten on each failure. -/
def screenshotPathL : List Char := "error_screenshot.png".toList

/-- Embedding of run_automation (lines 45-76) at attempt k running the given
    code.  Returns the event trace of this invocation (nested retries
    included) together with the fault escaping it, if any; none means the
    given nesting fuel was exhausted.  Control flow mirrors the source:
    browser, context and page are created before the try block (a fault there
    skips the finally clause, so no browserClose is emitted); a routine fault
    is caught and followed by the screenshot, whose own fault propagates and
    skips the retry prompt while the finally clause still closes the browser;
    an accepted retry generates a new routine and recurses, and the finally
    clause closes this attempt's browser after the nested call finishes or
    while its fault propagates. -/
def run_automation (b : Behavior) :
    Nat → Nat → List Char → Option (List Event × Option EscFault)
  | 0, _, _ => none
  | fuel + 1, k, code =>
    if b.launchFail k then some ([], some (.acquire k 0))
    else if b.contextFail k then some ([.launch k], some (.acquire k 1))
    else if b.pageFail k then
      some ([.launch k, .newContext k], some (.acquire k 2))
    else
      let pre : List Event := [.launch k, .newContext k, .newPage k, .execRun k code]
      match b.execFault k with
      | none => some (pre ++ [.execOk k, .browserClose k], none)
      | some msg =>
        if b.shotFault k then
          some (pre ++ [.execCaught k msg, .browserClose k], some (.screenshot k))
        else
          let mid : List Event :=
            pre ++ [.execCaught k msg, .screenshotSaved k screenshotPathL,
                    .retryPrompt k (b.retryAnswer k)]
          if answerNorm (b.retryAnswer k) = yesL then
            let newCode := generate_code_from_prompt (b.rawGen (k + 1))
            match run_automation b fuel (k + 1) newCode with
            | none => none
            | some (evs, esc) =>
              some (mid ++ .genRetryCode (k + 1) newCode :: evs
                      ++ [.browserClose k], esc)
          else
            some (mid ++ [.browserClose k], none)

/-- Outcome of main: the degenerate-generation notice followed by return
    (lines 84-86), cancellation (line 94), or a started browser run with its
    trace and escaping fault. -/
inductive MainResult where
  | emptyGeneration
  | cancelled
  | ran (trace : List Event) (escaped : Option EscFault)
  deriving DecidableEq

/-- Embedding of main (lines 79-94): generate the first routine, rewrite the
    input selector to a textarea selector (line 82), refuse degenerate code
    (lines 84-86), then on operator confirmation run it. -/
def main (b : Behavior) (fuel : Nat) : Option MainResult :=
  let code := replaceFill (generate_code_from_prompt (b.rawGen 0))
  if hasSub passL code = true ∨ code.length < 30 then some .emptyGeneration
  else if answerNorm b.runAnswer = yesL then
    match run_automation b fuel 0 code with
    | none => none
    | some (evs, esc) => some (.ran evs esc)
  else some .cancelled

/-! ## Substring and prefix lemmas -/

theorem startsWithL_iff {p s : List Char} : startsWithL p s = true ↔ p <+: s := by
  induction p generalizing s with
  | nil => simp [startsWithL]
  | cons a p ih =>
    cases s with
    | nil => simp [startsWithL]
    | cons c t => simp [startsWithL, ih, List.cons_prefix_cons]

theorem startsWithL_self_append (p t : List Char) :
    startsWithL p (p ++ t) = true :=
  startsWithL_iff.mpr ⟨t, rfl⟩

theorem hasSub_iff {p s : List Char} : hasSub p s = true ↔ p <:+: s := by
  induction s with
  | nil => simp [hasSub, List.isEmpty_iff, List.infix_nil]
  | cons c t ih => simp [hasSub, startsWithL_iff, ih, List.infix_cons_iff]

theorem hasSub_tail {p : List Char} {c : Char} {t : List Char}
    (h : hasSub p (c :: t) = false) : hasSub p t = false := by
  simp [hasSub] at h; exact h.2

theorem hasSub_append_left {p b : List Char} (a : List Char)
    (h : hasSub p b = true) : hasSub p (a ++ b) = true :=
  hasSub_iff.mpr ((hasSub_iff.mp h).trans (List.suffix_append a b).isInfix)

theorem hasSub_length {p s : List Char} (h : hasSub p s = true) :
    p.length ≤ s.length :=
  (hasSub_iff.mp h).length_le

theorem startsWithL_append (p u rest : List Char) :
    startsWithL p (u ++ rest)
      = (startsWithL (p.take u.length) u && startsWithL (p.drop u.length) rest) := by
  induction u generalizing p with
  | nil => simp [startsWithL]
  | cons c u ih =>
    cases p with
    | nil => simp [startsWithL]
    | cons a p => simp [startsWithL, ih, Bool.and_assoc]

theorem hasSub_append_of_no_start {p a rest : List Char}
    (h : ∀ k, k < a.length → startsWithL (p.take (a.length - k)) (a.drop k) = false) :
    hasSub p (a ++ rest) = hasSub p rest := by
  induction a with
  | nil => rfl
  | cons c a ih =>
    have h0 := h 0 (by simp)
    simp only [List.drop_zero, Nat.sub_zero] at h0
    have : hasSub p ((c :: a) ++ rest) =
        (startsWithL p ((c :: a) ++ rest) || hasSub p (a ++ rest)) := rfl
    rw [this, startsWithL_append, h0]
    simp only [Bool.false_and, Bool.false_or]
    exact ih fun k hk => by
      have := h (k + 1) (by simpa using Nat.succ_lt_succ hk)
      simpa using this

/-! ## Strip lemmas -/

theorem dropWhile_head_not {p : Char → Bool} {l t : List Char} {c : Char}
    (h : l.dropWhile p = c :: t) : p c = false := by
  induction l with
  | nil => simp [List.dropWhile] at h
  | cons a l ih =>
    rw [List.dropWhile_cons] at h
    split at h
    · exact ih h
    · next hp => cases h; simpa using hp

theorem stripLeft_eq_self {s : List Char}
    (h : ∀ c, s.head? = some c → pyWhitespace c = false) : stripLeft s = s := by
  cases s with
  | nil => rfl
  | cons c t =>
    have := h c rfl
    simp [stripLeft, List.dropWhile_cons, this]

theorem stripLeft_head_not {s t : List Char} {c : Char}
    (h : stripLeft s = c :: t) : pyWhitespace c = false :=
  dropWhile_head_not h

theorem stripLeft_suffix (s : List Char) : stripLeft s <:+ s :=
  List.dropWhile_suffix pyWhitespace

theorem stripRight_prefix_self (s : List Char) : stripRight s <+: s := by
  apply List.reverse_suffix.mp
  rw [stripRight, List.reverse_reverse]
  exact List.dropWhile_suffix pyWhitespace

theorem stripRight_eq_self {s : List Char}
    (h : ∀ c, s.getLast? = some c → pyWhitespace c = false) : stripRight s = s := by
  cases hr : s.reverse with
  | nil =>
    have hs : s = [] := by simpa using congrArg List.reverse hr
    simp [hs, stripRight]
  | cons c t =>
    have hc : s.getLast? = some c := by
      rw [← List.head?_reverse, hr]; rfl
    have hw := h c hc
    rw [stripRight, hr, List.dropWhile_cons, hw]
    rw [if_neg Bool.false_ne_true, ← hr, List.reverse_reverse]

theorem stripRight_getLast_not {s : List Char} {c : Char}
    (h : (stripRight s).getLast? = some c) : pyWhitespace c = false := by
  rw [stripRight, ← List.head?_reverse, List.reverse_reverse] at h
  cases hd : s.reverse.dropWhile pyWhitespace with
  | nil => rw [hd] at h; simp at h
  | cons a t =>
    rw [hd] at h
    cases h
    exact dropWhile_head_not hd

theorem stripRight_head? {s : List Char} (h : stripRight s ≠ []) :
    (stripRight s).head? = s.head? := by
  obtain ⟨t, ht⟩ := stripRight_prefix_self s
  conv_rhs => rw [← ht]
  rw [List.head?_append_of_ne_nil _ h]

theorem strip_infix_self (s : List Char) : strip s <:+: s :=
  (stripRight_prefix_self (stripLeft s)).isInfix.trans (stripLeft_suffix s).isInfix

theorem strip_head_not {s t : List Char} {c : Char}
    (h : strip s = c :: t) : pyWhitespace c = false := by
  have hne : stripRight (stripLeft s) ≠ [] := by rw [← strip]; simp [h]
  have hh := stripRight_head? hne
  rw [← strip, h] at hh
  cases hl : stripLeft s with
  | nil => rw [hl] at hh; simp at hh
  | cons a u =>
    rw [hl] at hh
    simp only [List.head?_cons, Option.some.injEq] at hh
    subst hh
    exact stripLeft_head_not hl

theorem strip_getLast_not {s : List Char} {c : Char}
    (h : (strip s).getLast? = some c) : pyWhitespace c = false :=
  stripRight_getLast_not h

theorem strip_eq_self {s : List Char}
    (h1 : ∀ c, s.head? = some c → pyWhitespace c = false)
    (h2 : ∀ c, s.getLast? = some c → pyWhitespace c = false) : strip s = s := by
  rw [strip, stripLeft_eq_self h1, stripRight_eq_self h2]

theorem strip_idem (s : List Char) : strip (strip s) = strip s := by
  apply strip_eq_self
  · intro c hc
    cases hs : strip s with
    | nil => rw [hs] at hc; simp at hc
    | cons a t =>
      rw [hs] at hc
      cases hc
      exact strip_head_not hs
  · intro c hc
    exact strip_getLast_not hc

/-! ## Fence-marker lemmas -/

theorem hasSub_mono {p t s : List Char} (hts : t <:+: s)
    (h : hasSub p t = true) : hasSub p s = true :=
  hasSub_iff.mpr ((hasSub_iff.mp h).trans hts)

theorem tripleL_starts_iff {c1 c2 c3 : Char} {r : List Char} :
    startsWithL tripleL (c1 :: c2 :: c3 :: r) = true
      ↔ c1 = btick ∧ c2 = btick ∧ c3 = btick := by
  simp only [tripleL, startsWithL, Bool.and_eq_true, beq_iff_eq, and_true]
  constructor
  · rintro ⟨a, b, c⟩
    exact ⟨a.symm, b.symm, c.symm⟩
  · rintro ⟨a, b, c⟩
    exact ⟨a.symm, b.symm, c.symm⟩

theorem startsWithL_one_iff {a : Char} {s : List Char} :
    startsWithL [a] s = true ↔ s.head? = some a := by
  cases s with
  | nil => simp [startsWithL]
  | cons c t =>
    simp only [startsWithL, Bool.and_eq_true, beq_iff_eq, and_true,
      List.head?_cons, Option.some.injEq]
    exact ⟨fun h => h.symm, fun h => h.symm⟩

theorem removeTriple_cons3 {c1 c2 c3 : Char} {rest : List Char} :
    removeTriple (c1 :: c2 :: c3 :: rest)
      = if c1 = btick ∧ c2 = btick ∧ c3 = btick then removeTriple rest
        else c1 :: removeTriple (c2 :: c3 :: rest) := rfl

theorem removeTriple_cons_short {c1 : Char} {rest : List Char}
    (hs : ∀ (c2 c3 : Char) (r : List Char), rest = c2 :: c3 :: r → False) :
    removeTriple (c1 :: rest) = c1 :: removeTriple rest := by
  cases rest with
  | nil => rfl
  | cons c2 r =>
    cases r with
    | nil => rfl
    | cons c3 r2 => exact absurd rfl (hs c2 c3 r2)

theorem removeTriple_eq_self : ∀ {s : List Char},
    hasSub tripleL s = false → removeTriple s = s := by
  intro s
  induction s using removeTriple.induct with
  | case1 c1 c2 c3 rest h1 ih =>
    intro h
    obtain ⟨e1, e2, e3⟩ := h1
    subst e1; subst e2; subst e3
    simp [hasSub, startsWithL, tripleL] at h
  | case2 c1 c2 c3 rest h1 ih =>
    intro h
    rw [removeTriple_cons3, if_neg h1]
    exact congrArg (c1 :: ·) (ih (hasSub_tail h))
  | case3 c1 rest hs ih =>
    intro h
    rw [removeTriple_cons_short hs]
    exact congrArg (c1 :: ·) (ih (hasSub_tail h))
  | case4 => intro _; rfl

theorem removeTriple_head_btick : ∀ {s : List Char},
    (removeTriple s).head? = some btick → s.head? = some btick := by
  intro s
  induction s using removeTriple.induct with
  | case1 c1 c2 c3 rest h1 ih =>
    intro _
    rw [h1.1]; rfl
  | case2 c1 c2 c3 rest h1 ih =>
    intro h
    rw [removeTriple_cons3, if_neg h1] at h
    exact h
  | case3 c1 rest hs ih =>
    intro h
    rw [removeTriple_cons_short hs] at h
    exact h
  | case4 => intro h; simp [removeTriple] at h

theorem removeTriple_starts2 : ∀ {s : List Char},
    startsWithL [btick, btick] (removeTriple s) = true
      → startsWithL [btick, btick] s = true := by
  intro s
  induction s using removeTriple.induct with
  | case1 c1 c2 c3 rest h1 ih =>
    intro _
    obtain ⟨e1, e2, _⟩ := h1
    subst e1; subst e2
    simp [startsWithL]
  | case2 c1 c2 c3 rest h1 ih =>
    intro h
    rw [removeTriple_cons3, if_neg h1] at h
    simp only [startsWithL, Bool.and_eq_true, beq_iff_eq, and_true] at h ⊢
    obtain ⟨hc1, h2⟩ := h
    have hh : (c2 :: c3 :: rest).head? = some btick :=
      removeTriple_head_btick (startsWithL_one_iff.mp h2)
    simp only [List.head?_cons, Option.some.injEq] at hh
    exact ⟨hc1, hh.symm⟩
  | case3 c1 rest hs ih =>
    intro h
    rw [removeTriple_cons_short hs] at h
    simp only [startsWithL, Bool.and_eq_true, beq_iff_eq, and_true] at h ⊢
    obtain ⟨hc1, h2⟩ := h
    have hh : rest.head? = some btick :=
      removeTriple_head_btick (startsWithL_one_iff.mp h2)
    exact ⟨hc1, startsWithL_one_iff.mpr hh⟩
  | case4 => intro h; simp [removeTriple, startsWithL] at h

theorem removeTriple_noTriple : ∀ (s : List Char),
    hasSub tripleL (removeTriple s) = false := by
  intro s
  induction s using removeTriple.induct with
  | case1 c1 c2 c3 rest h1 ih =>
    rw [removeTriple_cons3, if_pos h1]
    exact ih
  | case2 c1 c2 c3 rest h1 ih =>
    rw [removeTriple_cons3, if_neg h1]
    have hst : startsWithL tripleL (c1 :: removeTriple (c2 :: c3 :: rest)) = false := by
      cases hv : startsWithL tripleL (c1 :: removeTriple (c2 :: c3 :: rest)) with
      | false => rfl
      | true =>
        exfalso
        have he : tripleL = btick :: [btick, btick] := rfl
        rw [he] at hv
        simp only [startsWithL, Bool.and_eq_true, beq_iff_eq] at hv
        obtain ⟨hc1, h2⟩ := hv
        have h3 := removeTriple_starts2 h2
        simp only [startsWithL, Bool.and_eq_true, beq_iff_eq, and_true] at h3
        obtain ⟨hc2, hc3⟩ := h3
        exact h1 ⟨hc1.symm, hc2.symm, hc3.symm⟩
    simp [hasSub, hst, ih]
  | case3 c1 rest hs ih =>
    rw [removeTriple_cons_short hs]
    have hst : startsWithL tripleL (c1 :: removeTriple rest) = false := by
      cases hv : startsWithL tripleL (c1 :: removeTriple rest) with
      | false => rfl
      | true =>
        exfalso
        have : tripleL = btick :: [btick, btick] := rfl
        rw [this] at hv
        simp only [startsWithL, Bool.and_eq_true, beq_iff_eq] at hv
        obtain ⟨_, h2⟩ := hv
        have h3 := removeTriple_starts2 h2
        obtain ⟨t, ht⟩ := startsWithL_iff.mp h3
        cases rest with
        | nil => simp at ht
        | cons d r =>
          cases r with
          | nil => simp at ht
          | cons d2 r2 => exact hs d d2 r2 rfl
    simp [hasSub, hst, ih]
  | case4 => rfl

theorem subFence_cons9 {c1 c2 c3 c4 c5 c6 c7 c8 c9 : Char} {rest : List Char} :
    subFence (c1 :: c2 :: c3 :: c4 :: c5 :: c6 :: c7 :: c8 :: c9 :: rest)
      = if c1 = btick ∧ c2 = btick ∧ c3 = btick then
          (if c4 = 'p' ∧ c5 = 'y' ∧ c6 = 't' ∧ c7 = 'h' ∧ c8 = 'o' ∧ c9 = 'n' then
            subFence rest
          else subFence (c4 :: c5 :: c6 :: c7 :: c8 :: c9 :: rest))
        else c1 :: subFence (c2 :: c3 :: c4 :: c5 :: c6 :: c7 :: c8 :: c9 :: rest) :=
  rfl

theorem subFence_cons38 {c1 c2 c3 : Char} {rest : List Char}
    (hs : ∀ (c4 c5 c6 c7 c8 c9 : Char) (r : List Char),
        rest = c4 :: c5 :: c6 :: c7 :: c8 :: c9 :: r → False) :
    subFence (c1 :: c2 :: c3 :: rest)
      = if c1 = btick ∧ c2 = btick ∧ c3 = btick then subFence rest
        else c1 :: subFence (c2 :: c3 :: rest) := by
  cases rest with
  | nil => rfl
  | cons c4 r4 =>
  cases r4 with
  | nil => rfl
  | cons c5 r5 =>
  cases r5 with
  | nil => rfl
  | cons c6 r6 =>
  cases r6 with
  | nil => rfl
  | cons c7 r7 =>
  cases r7 with
  | nil => rfl
  | cons c8 r8 =>
  cases r8 with
  | nil => rfl
  | cons c9 r9 => exact absurd rfl (hs c4 c5 c6 c7 c8 c9 r9)

theorem subFence_cons_short {c1 : Char} {rest : List Char}
    (hs : ∀ (c2 c3 : Char) (r : List Char), rest = c2 :: c3 :: r → False) :
    subFence (c1 :: rest) = c1 :: subFence rest := by
  cases rest with
  | nil => rfl
  | cons c2 r =>
    cases r with
    | nil => rfl
    | cons c3 r2 => exact absurd rfl (hs c2 c3 r2)

theorem subFence_eq_self : ∀ {s : List Char},
    hasSub tripleL s = false → subFence s = s := by
  intro s
  induction s using subFence.induct with
  | case1 c1 c2 c3 c4 c5 c6 c7 c8 c9 rest h1 h2 ih =>
    intro h
    obtain ⟨e1, e2, e3⟩ := h1
    subst e1; subst e2; subst e3
    simp [hasSub, startsWithL, tripleL] at h
  | case2 c1 c2 c3 c4 c5 c6 c7 c8 c9 rest h1 h2 ih =>
    intro h
    obtain ⟨e1, e2, e3⟩ := h1
    subst e1; subst e2; subst e3
    simp [hasSub, startsWithL, tripleL] at h
  | case3 c1 c2 c3 c4 c5 c6 c7 c8 c9 rest h1 ih =>
    intro h
    rw [subFence_cons9, if_neg h1]
    exact congrArg (c1 :: ·) (ih (hasSub_tail h))
  | case4 c1 c2 c3 rest hs h1 ih =>
    intro h
    obtain ⟨e1, e2, e3⟩ := h1
    subst e1; subst e2; subst e3
    simp [hasSub, startsWithL, tripleL] at h
  | case5 c1 c2 c3 rest hs h1 ih =>
    intro h
    rw [subFence_cons38 hs, if_neg h1]
    exact congrArg (c1 :: ·) (ih (hasSub_tail h))
  | case6 c1 rest hs9 hs2 ih =>
    intro h
    rw [subFence_cons_short hs2]
    exact congrArg (c1 :: ·) (ih (hasSub_tail h))
  | case7 => intro _; rfl

/-! ## Cleanup-pipeline facts -/

theorem hasSub_false_mono {p t s : List Char} (hts : t <:+: s)
    (h : hasSub p s = false) : hasSub p t = false := by
  cases hv : hasSub p t with
  | false => rfl
  | true =>
    have := hasSub_mono hts hv
    rw [this] at h
    exact absurd h (by simp)

theorem clean_noTriple (raw : List Char) :
    hasSub tripleL (cleanText raw) = false := by
  cases hv : hasSub tripleL (cleanText raw) with
  | false => rfl
  | true =>
    exfalso
    have h2 := hasSub_mono (strip_infix_self (removeTriple (subFence (strip raw)))) hv
    rw [removeTriple_noTriple] at h2
    exact absurd h2 (by simp)

theorem clean_strip (raw : List Char) :
    strip (cleanText raw) = cleanText raw :=
  strip_idem _

theorem clean_eq_self_of {s : List Char} (h1 : strip s = s)
    (h2 : hasSub tripleL s = false) : cleanText s = s := by
  rw [cleanText, h1, subFence_eq_self h2, removeTriple_eq_self h2, h1]

theorem clean_idem (raw : List Char) :
    cleanText (cleanText raw) = cleanText raw :=
  clean_eq_self_of (clean_strip raw) (clean_noTriple raw)

/-! ## Infix decomposition over append -/

theorem infix_append_split {p a b : List Char} (h : p <:+: a ++ b) :
    p <:+: a ∨ p <:+: b
      ∨ ∃ p₁ p₂, p = p₁ ++ p₂ ∧ p₁ ≠ [] ∧ p₂ ≠ [] ∧ p₁ <:+ a ∧ p₂ <+: b := by
  obtain ⟨s, t, hst⟩ := h
  rw [List.append_assoc] at hst
  rcases List.append_eq_append_iff.mp hst with ⟨u, hu1, hu2⟩ | ⟨u, hu1, hu2⟩
  · rcases List.append_eq_append_iff.mp hu2 with ⟨v, hv1, hv2⟩ | ⟨v, hv1, hv2⟩
    · left
      exact ⟨s, v, by rw [hu1, hv1, List.append_assoc]⟩
    · rcases eq_or_ne u [] with hu | hu
      · right; left
        subst hu
        simp only [List.nil_append] at hv1
        exact ⟨[], t, by simp [hv1, hv2]⟩
      · rcases eq_or_ne v [] with hv | hv
        · left
          subst hv
          rw [hu1, hv1]
          exact ⟨s, [], by simp⟩
        · right; right
          exact ⟨u, v, hv1, hu, hv, ⟨s, hu1.symm⟩, ⟨t, hv2.symm⟩⟩
  · right; left
    exact ⟨u, t, by rw [← List.append_assoc] at hu2; exact hu2.symm⟩

theorem triple_infix_no_btick {a b : List Char} (h : tripleL <:+: a ++ b)
    (ha : btick ∉ a) : tripleL <:+: b := by
  rcases infix_append_split h with h1 | h1 | ⟨p₁, p₂, hp, hne1, _, hsuf, _⟩
  · exact absurd (h1.subset (by simp [tripleL])) ha
  · exact h1
  · exfalso
    obtain ⟨c, hc⟩ := List.exists_mem_of_ne_nil p₁ hne1
    have hct : c ∈ tripleL := by
      rw [hp]
      exact List.mem_append_left p₂ hc
    have hcb : c = btick := by simpa [tripleL] using hct
    exact ha (hsuf.subset (hcb ▸ hc))

theorem triple_infix_head {a b : List Char} (h : tripleL <:+: a ++ b)
    (hb : b.head? ≠ some btick) : tripleL <:+: a ∨ tripleL <:+: b := by
  rcases infix_append_split h with h1 | h1 | ⟨p₁, p₂, hp, _, hne2, _, hpre⟩
  · exact Or.inl h1
  · exact Or.inr h1
  · exfalso
    cases hp2 : p₂ with
    | nil => exact hne2 hp2
    | cons c t =>
      have hct : c ∈ tripleL := by
        rw [hp, hp2]
        exact List.mem_append_right p₁ (by simp)
      have hcb : c = btick := by simpa [tripleL] using hct
      obtain ⟨r, hr⟩ := hpre
      rw [hp2] at hr
      apply hb
      rw [← hr, hcb]
      rfl

/-! ## Splitlines lemmas -/

def breakFree (s : List Char) : Bool := s.all fun c => !isLineBreak c

theorem breakFree_cons {c : Char} {a : List Char} (h : breakFree (c :: a) = true) :
    isLineBreak c = false ∧ breakFree a = true := by
  simp only [breakFree, List.all_cons, Bool.and_eq_true, Bool.not_eq_true'] at h
  exact ⟨h.1, h.2⟩

theorem splitlinesAux_nil (cur : List Char) :
    splitlinesAux [] cur = if cur.isEmpty then [] else [cur.reverse] := rfl

theorem splitlinesAux_one (c : Char) (cur : List Char) :
    splitlinesAux [c] cur
      = if isLineBreak c = true then cur.reverse :: splitlinesAux [] []
        else splitlinesAux [] (c :: cur) := rfl

theorem splitlinesAux_two (c d : Char) (r cur : List Char) :
    splitlinesAux (c :: d :: r) cur
      = if isLineBreak c = true then
          (if c = '\r' ∧ d = '\n' then cur.reverse :: splitlinesAux r []
           else cur.reverse :: splitlinesAux (d :: r) [])
        else splitlinesAux (d :: r) (c :: cur) := rfl

theorem splitlinesAux_cons_not_break {c : Char} {s cur : List Char}
    (hc : isLineBreak c = false) :
    splitlinesAux (c :: s) cur = splitlinesAux s (c :: cur) := by
  cases s with
  | nil => rw [splitlinesAux_one, if_neg (by simp [hc])]
  | cons d r => rw [splitlinesAux_two, if_neg (by simp [hc])]

theorem splitlinesAux_cons_break {c : Char} {s cur : List Char}
    (hc : isLineBreak c = true) (hr : ¬(c = '\r' ∧ s.head? = some '\n')) :
    splitlinesAux (c :: s) cur = cur.reverse :: splitlinesAux s [] := by
  cases s with
  | nil => rw [splitlinesAux_one, if_pos hc]
  | cons d r =>
    rw [splitlinesAux_two, if_pos hc, if_neg]
    rintro ⟨h1, h2⟩
    exact hr ⟨h1, by simp [h2]⟩

theorem splitlines_newline {a : List Char} (hb : breakFree a = true) :
    ∀ (b cur : List Char),
      splitlinesAux (a ++ '\n' :: b) cur = (cur.reverse ++ a) :: splitlinesAux b [] := by
  induction a with
  | nil =>
    intro b cur
    simp only [List.nil_append]
    rw [splitlinesAux_cons_break (by decide) (by simp)]
    simp
  | cons c a ih =>
    intro b cur
    obtain ⟨hc, hb2⟩ := breakFree_cons hb
    rw [List.cons_append, splitlinesAux_cons_not_break hc, ih hb2 b (c :: cur)]
    congr 1
    simp

theorem splitlines_breakFree_eval {s : List Char} (hb : breakFree s = true) :
    ∀ (cur : List Char),
      splitlinesAux s cur
        = if cur.reverse ++ s = [] then [] else [cur.reverse ++ s] := by
  induction s with
  | nil =>
    intro cur
    rw [splitlinesAux_nil]
    cases cur with
    | nil => simp
    | cons c t => simp
  | cons c t ih =>
    intro cur
    obtain ⟨hc, hb2⟩ := breakFree_cons hb
    rw [splitlinesAux_cons_not_break hc, ih hb2 (c :: cur)]
    have h1 : (c :: cur).reverse ++ t = cur.reverse ++ c :: t := by simp
    rw [h1]

theorem breakFree_reverse {s : List Char} (h : breakFree s = true) :
    breakFree s.reverse = true := by
  simpa [breakFree, List.all_reverse] using h

theorem splitlinesAux_lines_breakFree : ∀ (s cur : List Char),
    breakFree cur = true → ∀ l ∈ splitlinesAux s cur, breakFree l = true := by
  intro s cur
  induction s, cur using splitlinesAux.induct with
  | case1 cur hcur =>
    intro _ l hl
    rw [splitlinesAux_nil, if_pos hcur] at hl
    simp at hl
  | case2 cur hcur =>
    intro hbc l hl
    rw [splitlinesAux_nil, if_neg hcur] at hl
    simp only [List.mem_singleton] at hl
    exact hl ▸ breakFree_reverse hbc
  | case3 c cur hc d rest2 hrn ih =>
    intro hbc l hl
    rw [splitlinesAux_two, if_pos hc, if_pos hrn] at hl
    rcases List.mem_cons.mp hl with hl | hl
    · exact hl ▸ breakFree_reverse hbc
    · exact ih rfl l hl
  | case4 c cur hc d rest2 hrn ih =>
    intro hbc l hl
    rw [splitlinesAux_two, if_pos hc, if_neg hrn] at hl
    rcases List.mem_cons.mp hl with hl | hl
    · exact hl ▸ breakFree_reverse hbc
    · exact ih rfl l hl
  | case5 c cur hc ih =>
    intro hbc l hl
    rw [splitlinesAux_one, if_pos hc] at hl
    rcases List.mem_cons.mp hl with hl | hl
    · exact hl ▸ breakFree_reverse hbc
    · exact ih rfl l hl
  | case6 c rest cur hc ih =>
    intro hbc l hl
    rw [splitlinesAux_cons_not_break (by simpa using hc)] at hl
    refine ih ?_ l hl
    simp only [breakFree, List.all_cons, Bool.and_eq_true, Bool.not_eq_true']
    exact ⟨by simpa using hc, by simpa [breakFree] using hbc⟩

theorem splitlinesAux_infix_mem : ∀ (s cur : List Char),
    ∀ l ∈ splitlinesAux s cur, l <:+: (cur.reverse ++ s) := by
  intro s cur
  induction s, cur using splitlinesAux.induct with
  | case1 cur hcur =>
    intro l hl
    rw [splitlinesAux_nil, if_pos hcur] at hl
    simp at hl
  | case2 cur hcur =>
    intro l hl
    rw [splitlinesAux_nil, if_neg hcur] at hl
    simp only [List.mem_singleton] at hl
    subst hl
    simp
  | case3 c cur hc d rest2 hrn ih =>
    intro l hl
    rw [splitlinesAux_two, if_pos hc, if_pos hrn] at hl
    rcases List.mem_cons.mp hl with hl | hl
    · subst hl
      exact (List.prefix_append cur.reverse _).isInfix
    · have h1 := ih l hl
      simp only [List.reverse_nil, List.nil_append] at h1
      refine h1.trans ?_
      exact ⟨cur.reverse ++ [c, d], [], by simp⟩
  | case4 c cur hc d rest2 hrn ih =>
    intro l hl
    rw [splitlinesAux_two, if_pos hc, if_neg hrn] at hl
    rcases List.mem_cons.mp hl with hl | hl
    · subst hl
      exact (List.prefix_append cur.reverse _).isInfix
    · have h1 := ih l hl
      simp only [List.reverse_nil, List.nil_append] at h1
      refine h1.trans ?_
      exact ⟨cur.reverse ++ [c], [], by simp⟩
  | case5 c cur hc ih =>
    intro l hl
    rw [splitlinesAux_one, if_pos hc] at hl
    rcases List.mem_cons.mp hl with hl | hl
    · subst hl
      exact (List.prefix_append cur.reverse _).isInfix
    · rw [splitlinesAux_nil] at hl
      simp at hl
  | case6 c rest cur hc ih =>
    intro l hl
    rw [splitlinesAux_cons_not_break (by simpa using hc)] at hl
    have h1 := ih l hl
    refine h1.trans ?_
    simp

theorem splitlines_lines_breakFree {s : List Char} :
    ∀ l ∈ splitlines s, breakFree l = true :=
  splitlinesAux_lines_breakFree s [] rfl

theorem splitlines_infix_mem {s : List Char} : ∀ l ∈ splitlines s, l <:+: s := by
  intro l hl
  have h1 := splitlinesAux_infix_mem s [] l hl
  simpa using h1

/-! ## Join and wrap lemmas -/

theorem joinIndented_cons2 (l l2 : List Char) (rest : List (List Char)) :
    joinIndented (l :: l2 :: rest)
      = indent4 ++ l ++ '\n' :: joinIndented (l2 :: rest) := rfl

theorem joinIndented_ne_nil {ls : List (List Char)} (h : ls ≠ []) :
    joinIndented ls ≠ [] := by
  cases ls with
  | nil => exact absurd rfl h
  | cons l rest =>
    cases rest with
    | nil => simp [joinIndented, indent4]
    | cons l2 r2 => simp [joinIndented_cons2, indent4]

theorem getLast?_cons_of_ne_nil {c : Char} {l : List Char} (h : l ≠ []) :
    (c :: l).getLast? = l.getLast? := by
  cases l with
  | nil => exact absurd rfl h
  | cons a t => exact List.getLast?_cons_cons

theorem joinIndented_getLast? : ∀ (ls : List (List Char)) {l : List Char},
    l ≠ [] → (joinIndented (ls ++ [l])).getLast? = l.getLast? := by
  intro ls
  induction ls with
  | nil =>
    intro l hl
    show (indent4 ++ l).getLast? = l.getLast?
    exact List.getLast?_append_of_ne_nil indent4 hl
  | cons a ls ih =>
    intro l hl
    cases hm : ls ++ [l] with
    | nil => simp at hm
    | cons m ms =>
      rw [List.cons_append, hm, joinIndented_cons2]
      have hJ : joinIndented (m :: ms) ≠ [] := joinIndented_ne_nil (by simp)
      rw [List.getLast?_append_of_ne_nil _ (by simp [hJ] : '\n' :: joinIndented (m :: ms) ≠ []),
        getLast?_cons_of_ne_nil hJ, ← hm, ih hl]

theorem breakFree_append {a b : List Char} (ha : breakFree a = true)
    (hb : breakFree b = true) : breakFree (a ++ b) = true := by
  simp only [breakFree, List.all_append, Bool.and_eq_true]
  exact ⟨ha, hb⟩

theorem hasSub_triple_false_of {s : List Char} (H : tripleL <:+: s → False) :
    hasSub tripleL s = false := by
  cases hv : hasSub tripleL s with
  | false => rfl
  | true => exact absurd (hasSub_iff.mp hv) H

theorem joinIndented_noTriple : ∀ {ls : List (List Char)},
    (∀ l ∈ ls, hasSub tripleL l = false)
      → hasSub tripleL (joinIndented ls) = false := by
  intro ls
  induction ls with
  | nil => intro _; rfl
  | cons l rest ih =>
    intro h
    cases rest with
    | nil =>
      apply hasSub_triple_false_of
      intro hinf
      have h1 := triple_infix_no_btick hinf (by decide)
      exact absurd (hasSub_iff.mpr h1) (by simp [h l (by simp)])
    | cons l2 r2 =>
      apply hasSub_triple_false_of
      intro hinf
      rw [joinIndented_cons2, List.append_assoc] at hinf
      have h1 := triple_infix_no_btick hinf (by decide)
      rcases triple_infix_head h1
          (by simp only [List.head?_cons, ne_eq, Option.some.injEq]; decide) with h2 | h2
      · exact absurd (hasSub_iff.mpr h2) (by simp [h l (by simp)])
      · have h3 : ('\n' :: joinIndented (l2 :: r2))
            = ['\n'] ++ joinIndented (l2 :: r2) := rfl
        rw [h3] at h2
        have h4 := triple_infix_no_btick h2 (by decide)
        have h5 : hasSub tripleL (joinIndented (l2 :: r2)) = false :=
          ih fun x hx => h x (List.mem_cons_of_mem l hx)
        exact absurd (hasSub_iff.mpr h4) (by simp [h5])

theorem wrap_noTriple {c : List Char} (h : hasSub tripleL c = false) :
    hasSub tripleL (wrapRoutine c) = false := by
  apply hasSub_triple_false_of
  intro hinf
  rw [wrapRoutine] at hinf
  have h1 := triple_infix_no_btick hinf (by decide)
  have h3 : ('\n' :: joinIndented (splitlines c))
      = ['\n'] ++ joinIndented (splitlines c) := rfl
  rw [h3] at h1
  have h2 := triple_infix_no_btick h1 (by decide)
  have h5 : hasSub tripleL (joinIndented (splitlines c)) = false :=
    joinIndented_noTriple fun l hl =>
      hasSub_false_mono (splitlines_infix_mem l hl) h
  exact absurd (hasSub_iff.mpr h2) (by simp [h5])

theorem splitlinesAux_last : ∀ (s cur : List Char) {d : Char},
    s.getLast? = some d → isLineBreak d = false →
    ∃ ls l, splitlinesAux s cur = ls ++ [l] ∧ l ≠ [] ∧ l.getLast? = some d := by
  intro s cur
  induction s, cur using splitlinesAux.induct with
  | case1 cur hcur => intro d hd _; simp at hd
  | case2 cur hcur => intro d hd _; simp at hd
  | case3 c cur hc d0 rest2 hrn ih =>
    intro d hd hbd
    rw [splitlinesAux_two, if_pos hc, if_pos hrn]
    rcases eq_or_ne rest2 [] with hr2 | hr2
    · exfalso
      rw [hr2] at hd
      simp only [List.getLast?_cons_cons, List.getLast?_singleton,
        Option.some.injEq] at hd
      rw [← hd, hrn.2] at hbd
      simp [isLineBreak] at hbd
    · have hd2 : rest2.getLast? = some d := by
        rw [List.getLast?_cons_cons, getLast?_cons_of_ne_nil hr2] at hd
        exact hd
      obtain ⟨ls, l, h1, h2, h3⟩ := ih hd2 hbd
      exact ⟨cur.reverse :: ls, l, by rw [h1]; rfl, h2, h3⟩
  | case4 c cur hc d0 rest2 hrn ih =>
    intro d hd hbd
    rw [splitlinesAux_two, if_pos hc, if_neg hrn]
    have hd2 : (d0 :: rest2).getLast? = some d := by
      rw [List.getLast?_cons_cons] at hd
      exact hd
    obtain ⟨ls, l, h1, h2, h3⟩ := ih hd2 hbd
    exact ⟨cur.reverse :: ls, l, by rw [h1]; rfl, h2, h3⟩
  | case5 c cur hc ih =>
    intro d hd hbd
    exfalso
    simp only [List.getLast?_singleton, Option.some.injEq] at hd
    rw [← hd] at hbd
    rw [hc] at hbd
    exact absurd hbd (by simp)
  | case6 c rest cur hcb ih =>
    intro d hd hbd
    rw [splitlinesAux_cons_not_break (by simpa using hcb)]
    rcases eq_or_ne rest [] with hr | hr
    · subst hr
      simp only [List.getLast?_singleton, Option.some.injEq] at hd
      refine ⟨[], (c :: cur).reverse, ?_, by simp, ?_⟩
      · rw [splitlinesAux_nil]
        simp
      · rw [List.reverse_cons, List.getLast?_concat, hd]
    · have hd2 : rest.getLast? = some d := by
        rw [getLast?_cons_of_ne_nil hr] at hd
        exact hd
      exact ih hd2 hbd

theorem wrap_getLast? {c : List Char} {d : Char} (hd : c.getLast? = some d)
    (hbd : isLineBreak d = false) :
    (wrapRoutine c).getLast? = some d := by
  obtain ⟨ls, l, hsp, hlne, hlast⟩ := splitlinesAux_last c [] hd hbd
  rw [wrapRoutine, splitlines, hsp]
  have hJ : joinIndented (ls ++ [l]) ≠ [] := joinIndented_ne_nil (by simp)
  rw [List.getLast?_append_of_ne_nil _
      (by simp [hJ] : '\n' :: joinIndented (ls ++ [l]) ≠ []),
    getLast?_cons_of_ne_nil hJ, joinIndented_getLast? ls hlne, hlast]

theorem lineBreak_whitespace {d : Char} (h : pyWhitespace d = false) :
    isLineBreak d = false := by
  simp only [pyWhitespace, Bool.or_eq_false_iff, decide_eq_false_iff_not] at h
  simp only [isLineBreak, Bool.or_eq_false_iff, decide_eq_false_iff_not]
  obtain ⟨⟨⟨⟨⟨h1, h2⟩, h3⟩, h4⟩, h5⟩, h6⟩ := h
  exact ⟨⟨⟨h3, h4⟩, h5⟩, h6⟩

theorem wrap_strip {c : List Char} (hc : c ≠ []) (hstr : strip c = c) :
    strip (wrapRoutine c) = wrapRoutine c := by
  have hlast : ∃ d, c.getLast? = some d := by
    cases hcl : c.getLast? with
    | none => rw [List.getLast?_eq_none_iff] at hcl; exact absurd hcl hc
    | some d => exact ⟨d, rfl⟩
  obtain ⟨d, hd⟩ := hlast
  have hdw : pyWhitespace d = false := strip_getLast_not (by rw [hstr]; exact hd)
  apply strip_eq_self
  · intro c0 h0
    have : c0 = 'a' := by
      rw [wrapRoutine] at h0
      simp only [headerL, List.cons_append, List.head?_cons,
        Option.some.injEq] at h0
      exact h0.symm
    rw [this]
    rfl
  · intro c0 h0
    rw [wrap_getLast? hd (lineBreak_whitespace hdw)] at h0
    simp only [Option.some.injEq] at h0
    exact h0 ▸ hdw

/-! ## Normalizer facts -/

theorem normalize_starts_header (raw : List Char) :
    startsWithL headerL (generate_code_from_prompt raw) = true := by
  rw [generate_code_from_prompt]
  split
  · next h => exact h
  · next h =>
    rw [wrapRoutine]
    exact startsWithL_self_append headerL _

theorem normalize_wrap_of {raw : List Char}
    (h : startsWithL headerL (cleanText raw) = false) :
    generate_code_from_prompt raw = wrapRoutine (cleanText raw) := by
  rw [generate_code_from_prompt, if_neg (by simp [h])]

theorem normalize_unchanged_of {raw : List Char} (h1 : cleanText raw = raw)
    (h2 : startsWithL headerL raw = true) :
    generate_code_from_prompt raw = raw := by
  rw [generate_code_from_prompt, h1, if_pos h2]

theorem normalize_idem_of {x : List Char} (hx : cleanText x ≠ []) :
    generate_code_from_prompt (generate_code_from_prompt x)
      = generate_code_from_prompt x := by
  cases hs : startsWithL headerL (cleanText x) with
  | true =>
    have hn : generate_code_from_prompt x = cleanText x := by
      rw [generate_code_from_prompt, if_pos hs]
    rw [hn]
    exact normalize_unchanged_of (clean_idem x) hs
  | false =>
    have hn : generate_code_from_prompt x = wrapRoutine (cleanText x) :=
      normalize_wrap_of hs
    rw [hn]
    have hclean : cleanText (wrapRoutine (cleanText x)) = wrapRoutine (cleanText x) :=
      clean_eq_self_of (wrap_strip hx (clean_strip x)) (wrap_noTriple (clean_noTriple x))
    have hsw : startsWithL headerL (wrapRoutine (cleanText x)) = true := by
      rw [wrapRoutine]
      exact startsWithL_self_append headerL _
    exact normalize_unchanged_of hclean hsw

theorem splitlines_joinIndented : ∀ {ls : List (List Char)},
    (∀ l ∈ ls, breakFree l = true) →
    splitlinesAux (joinIndented ls) [] = ls.map (fun l => indent4 ++ l) := by
  intro ls
  induction ls with
  | nil => intro _; rfl
  | cons l rest ih =>
    intro h
    cases rest with
    | nil =>
      show splitlinesAux (indent4 ++ l) [] = [indent4 ++ l]
      rw [splitlines_breakFree_eval (breakFree_append (by decide) (h l (by simp))) []]
      simp [indent4]
    | cons l2 r2 =>
      rw [joinIndented_cons2,
        splitlines_newline (breakFree_append (by decide) (h l (by simp))) _ [],
        ih fun x hx => h x (List.mem_cons_of_mem l hx)]
      simp

theorem splitlines_wrap (c : List Char) :
    splitlines (wrapRoutine c)
      = headerL :: (splitlines c).map (fun l => indent4 ++ l) := by
  rw [wrapRoutine, splitlines]
  rw [splitlines_newline (by decide) _ []]
  simp only [List.reverse_nil, List.nil_append]
  congr 1
  exact splitlines_joinIndented splitlines_lines_breakFree


/-! ## Execution-loop lemmas -/

/-- The attempt index carried by an event. -/
def eventIdx : Event → Nat
  | .launch k => k
  | .newContext k => k
  | .newPage k => k
  | .execRun k _ => k
  | .execOk k => k
  | .execCaught k _ => k
  | .screenshotSaved k _ => k
  | .retryPrompt k _ => k
  | .genRetryCode k _ => k
  | .browserClose k => k

theorem run_zero {b : Behavior} {k : Nat} {c : List Char} :
    run_automation b 0 k c = none := rfl

theorem run_launchFail {b : Behavior} {fuel k : Nat} {c : List Char}
    (h1 : b.launchFail k = true) :
    run_automation b (fuel + 1) k c = some ([], some (.acquire k 0)) := by
  simp [run_automation, h1]

theorem run_contextFail {b : Behavior} {fuel k : Nat} {c : List Char}
    (h1 : b.launchFail k = false) (h2 : b.contextFail k = true) :
    run_automation b (fuel + 1) k c
      = some ([.launch k], some (.acquire k 1)) := by
  simp [run_automation, h1, h2]

theorem run_pageFail {b : Behavior} {fuel k : Nat} {c : List Char}
    (h1 : b.launchFail k = false) (h2 : b.contextFail k = false)
    (h3 : b.pageFail k = true) :
    run_automation b (fuel + 1) k c
      = some ([.launch k, .newContext k], some (.acquire k 2)) := by
  simp [run_automation, h1, h2, h3]

theorem run_execOk {b : Behavior} {fuel k : Nat} {c : List Char}
    (h1 : b.launchFail k = false) (h2 : b.contextFail k = false)
    (h3 : b.pageFail k = false) (he : b.execFault k = none) :
    run_automation b (fuel + 1) k c
      = some ([.launch k, .newContext k, .newPage k, .execRun k c,
               .execOk k, .browserClose k], none) := by
  simp [run_automation, h1, h2, h3, he]

theorem run_shotFault {b : Behavior} {fuel k : Nat} {c msg : List Char}
    (h1 : b.launchFail k = false) (h2 : b.contextFail k = false)
    (h3 : b.pageFail k = false) (he : b.execFault k = some msg)
    (hs : b.shotFault k = true) :
    run_automation b (fuel + 1) k c
      = some ([.launch k, .newContext k, .newPage k, .execRun k c,
               .execCaught k msg, .browserClose k], some (.screenshot k)) := by
  simp [run_automation, h1, h2, h3, he, hs]

theorem run_declined {b : Behavior} {fuel k : Nat} {c msg : List Char}
    (h1 : b.launchFail k = false) (h2 : b.contextFail k = false)
    (h3 : b.pageFail k = false) (he : b.execFault k = some msg)
    (hs : b.shotFault k = false) (ha : answerNorm (b.retryAnswer k) ≠ yesL) :
    run_automation b (fuel + 1) k c
      = some ([.launch k, .newContext k, .newPage k, .execRun k c,
               .execCaught k msg, .screenshotSaved k screenshotPathL,
               .retryPrompt k (b.retryAnswer k), .browserClose k], none) := by
  simp [run_automation, h1, h2, h3, he, hs, ha]

theorem run_accepted_some {b : Behavior} {fuel k : Nat} {c msg : List Char}
    {evs2 : List Event} {esc2 : Option EscFault}
    (h1 : b.launchFail k = false) (h2 : b.contextFail k = false)
    (h3 : b.pageFail k = false) (he : b.execFault k = some msg)
    (hs : b.shotFault k = false) (ha : answerNorm (b.retryAnswer k) = yesL)
    (hrec : run_automation b fuel (k + 1)
        (generate_code_from_prompt (b.rawGen (k + 1))) = some (evs2, esc2)) :
    run_automation b (fuel + 1) k c
      = some ([.launch k, .newContext k, .newPage k, .execRun k c,
               .execCaught k msg, .screenshotSaved k screenshotPathL,
               .retryPrompt k (b.retryAnswer k)]
              ++ .genRetryCode (k + 1) (generate_code_from_prompt (b.rawGen (k + 1)))
                :: evs2 ++ [.browserClose k], esc2) := by
  simp [run_automation, h1, h2, h3, he, hs, ha, hrec]

theorem run_accepted_none {b : Behavior} {fuel k : Nat} {c msg : List Char}
    (h1 : b.launchFail k = false) (h2 : b.contextFail k = false)
    (h3 : b.pageFail k = false) (he : b.execFault k = some msg)
    (hs : b.shotFault k = false) (ha : answerNorm (b.retryAnswer k) = yesL)
    (hrec : run_automation b fuel (k + 1)
        (generate_code_from_prompt (b.rawGen (k + 1))) = none) :
    run_automation b (fuel + 1) k c = none := by
  simp [run_automation, h1, h2, h3, he, hs, ha, hrec]


/-- Complete case analysis of one unfolding of run_automation. -/
theorem run_cases {b : Behavior} {fuel k : Nat} {c : List Char}
    {evs : List Event} {esc : Option EscFault}
    (h : run_automation b (fuel + 1) k c = some (evs, esc)) :
    (b.launchFail k = true ∧ evs = [] ∧ esc = some (.acquire k 0))
    ∨ (b.launchFail k = false ∧ b.contextFail k = true
        ∧ evs = [.launch k] ∧ esc = some (.acquire k 1))
    ∨ (b.launchFail k = false ∧ b.contextFail k = false ∧ b.pageFail k = true
        ∧ evs = [.launch k, .newContext k] ∧ esc = some (.acquire k 2))
    ∨ (b.launchFail k = false ∧ b.contextFail k = false ∧ b.pageFail k = false
        ∧ b.execFault k = none
        ∧ evs = [.launch k, .newContext k, .newPage k, .execRun k c,
                 .execOk k, .browserClose k]
        ∧ esc = none)
    ∨ (∃ msg, b.launchFail k = false ∧ b.contextFail k = false
        ∧ b.pageFail k = false
        ∧ b.execFault k = some msg ∧ b.shotFault k = true
        ∧ evs = [.launch k, .newContext k, .newPage k, .execRun k c,
                 .execCaught k msg, .browserClose k]
        ∧ esc = some (.screenshot k))
    ∨ (∃ msg, b.launchFail k = false ∧ b.contextFail k = false
        ∧ b.pageFail k = false
        ∧ b.execFault k = some msg ∧ b.shotFault k = false
        ∧ answerNorm (b.retryAnswer k) ≠ yesL
        ∧ evs = [.launch k, .newContext k, .newPage k, .execRun k c,
                 .execCaught k msg, .screenshotSaved k screenshotPathL,
                 .retryPrompt k (b.retryAnswer k), .browserClose k]
        ∧ esc = none)
    ∨ (∃ msg evs2, b.launchFail k = false ∧ b.contextFail k = false
        ∧ b.pageFail k = false
        ∧ b.execFault k = some msg ∧ b.shotFault k = false
        ∧ answerNorm (b.retryAnswer k) = yesL
        ∧ run_automation b fuel (k + 1)
            (generate_code_from_prompt (b.rawGen (k + 1))) = some (evs2, esc)
        ∧ evs = [.launch k, .newContext k, .newPage k, .execRun k c,
                 .execCaught k msg, .screenshotSaved k screenshotPathL,
                 .retryPrompt k (b.retryAnswer k)]
                ++ .genRetryCode (k + 1)
                    (generate_code_from_prompt (b.rawGen (k + 1)))
                  :: evs2 ++ [.browserClose k]) := by
  cases h1 : b.launchFail k with
  | true =>
    rw [run_launchFail h1] at h
    simp only [Option.some.injEq, Prod.mk.injEq] at h
    exact Or.inl ⟨rfl, h.1.symm, h.2.symm⟩
  | false =>
  cases h2 : b.contextFail k with
  | true =>
    rw [run_contextFail h1 h2] at h
    simp only [Option.some.injEq, Prod.mk.injEq] at h
    exact Or.inr (Or.inl ⟨rfl, rfl, h.1.symm, h.2.symm⟩)
  | false =>
  cases h3 : b.pageFail k with
  | true =>
    rw [run_pageFail h1 h2 h3] at h
    simp only [Option.some.injEq, Prod.mk.injEq] at h
    exact Or.inr (Or.inr (Or.inl ⟨rfl, rfl, rfl, h.1.symm, h.2.symm⟩))
  | false =>
  cases he : b.execFault k with
  | none =>
    rw [run_execOk h1 h2 h3 he] at h
    simp only [Option.some.injEq, Prod.mk.injEq] at h
    exact Or.inr (Or.inr (Or.inr (Or.inl ⟨rfl, rfl, rfl, rfl, h.1.symm, h.2.symm⟩)))
  | some msg =>
  cases hs : b.shotFault k with
  | true =>
    rw [run_shotFault h1 h2 h3 he hs] at h
    simp only [Option.some.injEq, Prod.mk.injEq] at h
    exact Or.inr (Or.inr (Or.inr (Or.inr (Or.inl
      ⟨msg, rfl, rfl, rfl, rfl, rfl, h.1.symm, h.2.symm⟩))))
  | false =>
  by_cases ha : answerNorm (b.retryAnswer k) = yesL
  · cases hrec : run_automation b fuel (k + 1)
        (generate_code_from_prompt (b.rawGen (k + 1))) with
    | none =>
      rw [run_accepted_none h1 h2 h3 he hs ha hrec] at h
      exact absurd h (by simp)
    | some p =>
      obtain ⟨evs2, esc2⟩ := p
      rw [run_accepted_some h1 h2 h3 he hs ha hrec] at h
      simp only [Option.some.injEq, Prod.mk.injEq] at h
      refine Or.inr (Or.inr (Or.inr (Or.inr (Or.inr (Or.inr
        ⟨msg, evs2, rfl, rfl, rfl, rfl, rfl, ha, ?_, h.1.symm⟩)))))
      rw [h.2]
  · rw [run_declined h1 h2 h3 he hs ha] at h
    simp only [Option.some.injEq, Prod.mk.injEq] at h
    exact Or.inr (Or.inr (Or.inr (Or.inr (Or.inr (Or.inl
      ⟨msg, rfl, rfl, rfl, rfl, rfl, ha, h.1.symm, h.2.symm⟩)))))

/-- Every event in a trace started at attempt k carries index at least k. -/
theorem run_events_le {b : Behavior} : ∀ (fuel k : Nat) (c : List Char)
    (evs : List Event) (esc : Option EscFault),
    run_automation b fuel k c = some (evs, esc) →
    ∀ e ∈ evs, k ≤ eventIdx e := by
  intro fuel
  induction fuel with
  | zero => intro k c evs esc h; rw [run_zero] at h; exact absurd h (by simp)
  | succ fuel ih =>
    intro k c evs esc h e he
    rcases run_cases h with
        ⟨_, hevs, _⟩ | ⟨_, _, hevs, _⟩ | ⟨_, _, _, hevs, _⟩
      | ⟨_, _, _, _, hevs, _⟩ | ⟨msg, _, _, _, _, _, hevs, _⟩
      | ⟨msg, _, _, _, _, _, _, hevs, _⟩
      | ⟨msg, evs2, _, _, _, _, _, _, hrec, hevs⟩
    · subst hevs; simp at he
    · subst hevs
      simp only [List.mem_singleton] at he
      subst he; simp only [eventIdx]; omega
    · subst hevs
      simp only [List.mem_cons, List.not_mem_nil, or_false] at he
      rcases he with h0 | h0 <;> (subst h0; simp only [eventIdx]; omega)
    · subst hevs
      simp only [List.mem_cons, List.not_mem_nil, or_false] at he
      rcases he with h0 | h0 | h0 | h0 | h0 | h0 <;>
        (subst h0; simp only [eventIdx]; omega)
    · subst hevs
      simp only [List.mem_cons, List.not_mem_nil, or_false] at he
      rcases he with h0 | h0 | h0 | h0 | h0 | h0 <;>
        (subst h0; simp only [eventIdx]; omega)
    · subst hevs
      simp only [List.mem_cons, List.not_mem_nil, or_false] at he
      rcases he with h0 | h0 | h0 | h0 | h0 | h0 | h0 | h0 <;>
        (subst h0; simp only [eventIdx]; omega)
    · subst hevs
      rcases List.mem_append.mp he with hA | hB
      · rcases List.mem_append.mp hA with h1 | h2
        · simp only [List.mem_cons, List.not_mem_nil, or_false] at h1
          rcases h1 with h0 | h0 | h0 | h0 | h0 | h0 | h0 <;>
            (subst h0; simp only [eventIdx]; omega)
        · rcases List.mem_cons.mp h2 with h0 | h0
          · subst h0; simp only [eventIdx]; omega
          · exact Nat.le_of_succ_le (ih (k + 1) _ evs2 esc hrec e h0)
      · simp only [List.mem_singleton] at hB
        subst hB; simp only [eventIdx]; omega


/-- When browser, context and page creation all succeed at attempt k, the
    trace of the invocation started at k closes attempt k's browser exactly
    once, on every exit path. -/
theorem run_close_once {b : Behavior} : ∀ (fuel k : Nat) (c : List Char)
    (evs : List Event) (esc : Option EscFault),
    run_automation b fuel k c = some (evs, esc) →
    b.launchFail k = false → b.contextFail k = false → b.pageFail k = false →
    evs.count (.browserClose k) = 1 := by
  intro fuel
  induction fuel with
  | zero => intro k c evs esc h; rw [run_zero] at h; exact absurd h (by simp)
  | succ fuel ih =>
    intro k c evs esc h h1 h2 h3
    rcases run_cases h with
        ⟨hl, _, _⟩ | ⟨_, hc2, _, _⟩ | ⟨_, _, hp, _, _⟩
      | ⟨_, _, _, _, hevs, _⟩ | ⟨msg, _, _, _, _, _, hevs, _⟩
      | ⟨msg, _, _, _, _, _, _, hevs, _⟩
      | ⟨msg, evs2, _, _, _, _, _, _, hrec, hevs⟩
    · rw [hl] at h1; exact absurd h1 (by simp)
    · rw [hc2] at h2; exact absurd h2 (by simp)
    · rw [hp] at h3; exact absurd h3 (by simp)
    · subst hevs; simp [List.count_cons]
    · subst hevs; simp [List.count_cons]
    · subst hevs; simp [List.count_cons]
    · subst hevs
      have hz : evs2.count (Event.browserClose k) = 0 := by
        rw [List.count_eq_zero]
        intro hmem
        have hle := run_events_le fuel (k + 1) _ evs2 esc hrec _ hmem
        simp only [eventIdx] at hle
        omega
      simp [List.count_append, List.count_cons, hz]

/-- Every executed routine in a trace is either the code the invocation was
    started with, or the freshly generated routine of a deeper retry. -/
theorem run_execRun_codes {b : Behavior} : ∀ (fuel k : Nat) (c : List Char)
    (evs : List Event) (esc : Option EscFault),
    run_automation b fuel k c = some (evs, esc) →
    ∀ (j : Nat) (cj : List Char), Event.execRun j cj ∈ evs →
      (j = k ∧ cj = c)
      ∨ (k + 1 ≤ j ∧ cj = generate_code_from_prompt (b.rawGen j)) := by
  intro fuel
  induction fuel with
  | zero => intro k c evs esc h; rw [run_zero] at h; exact absurd h (by simp)
  | succ fuel ih =>
    intro k c evs esc h j cj he
    rcases run_cases h with
        ⟨_, hevs, _⟩ | ⟨_, _, hevs, _⟩ | ⟨_, _, _, hevs, _⟩
      | ⟨_, _, _, _, hevs, _⟩ | ⟨msg, _, _, _, _, _, hevs, _⟩
      | ⟨msg, _, _, _, _, _, _, hevs, _⟩
      | ⟨msg, evs2, _, _, _, _, _, _, hrec, hevs⟩
    · subst hevs; simp at he
    · subst hevs; simp at he
    · subst hevs; simp at he
    · subst hevs
      simp only [List.mem_cons, List.not_mem_nil, or_false] at he
      simp at he
      exact Or.inl ⟨he.1, he.2⟩
    · subst hevs
      simp at he
      exact Or.inl ⟨he.1, he.2⟩
    · subst hevs
      simp at he
      exact Or.inl ⟨he.1, he.2⟩
    · subst hevs
      rcases List.mem_append.mp he with hA | hB
      · rcases List.mem_append.mp hA with hx | hx
        · simp at hx
          exact Or.inl ⟨hx.1, hx.2⟩
        · rcases List.mem_cons.mp hx with hx2 | hx2
          · simp at hx2
          · rcases ih (k + 1) _ evs2 esc hrec j cj hx2 with ⟨hj, hcj⟩ | ⟨hj, hcj⟩
            · right
              constructor
              · omega
              · rw [hcj, hj]
            · exact Or.inr ⟨by omega, hcj⟩
      · simp at hB

/-- When resource acquisition succeeds at attempt k, the routine given to the
    invocation is executed at attempt k. -/
theorem run_execRun_mem {b : Behavior} {fuel k : Nat} {c : List Char}
    {evs : List Event} {esc : Option EscFault}
    (h : run_automation b (fuel + 1) k c = some (evs, esc))
    (h1 : b.launchFail k = false) (h2 : b.contextFail k = false)
    (h3 : b.pageFail k = false) :
    Event.execRun k c ∈ evs := by
  rcases run_cases h with
      ⟨hl, _, _⟩ | ⟨_, hc2, _, _⟩ | ⟨_, _, hp, _, _⟩
    | ⟨_, _, _, _, hevs, _⟩ | ⟨msg, _, _, _, _, _, hevs, _⟩
    | ⟨msg, _, _, _, _, _, _, hevs, _⟩
    | ⟨msg, evs2, _, _, _, _, _, _, hrec, hevs⟩
  · rw [hl] at h1; exact absurd h1 (by simp)
  · rw [hc2] at h2; exact absurd h2 (by simp)
  · rw [hp] at h3; exact absurd h3 (by simp)
  · subst hevs; simp
  · subst hevs; simp
  · subst hevs; simp
  · subst hevs; simp

/-- Inversion for main reaching the browser run. -/
theorem main_ran_inv {b : Behavior} {fuel : Nat} {evs : List Event}
    {esc : Option EscFault} (h : main b fuel = some (.ran evs esc)) :
    run_automation b fuel 0 (replaceFill (generate_code_from_prompt (b.rawGen 0)))
      = some (evs, esc) := by
  simp only [main] at h
  split_ifs at h with hc ha
  · exact absurd h (by simp)
  · cases hr : run_automation b fuel 0
        (replaceFill (generate_code_from_prompt (b.rawGen 0))) with
    | none => rw [hr] at h; exact absurd h (by simp)
    | some p =>
      obtain ⟨e2, s2⟩ := p
      rw [hr] at h
      simp only [Option.some.injEq, MainResult.ran.injEq] at h
      rw [h.1, h.2]
  · exact absurd h (by simp)

/-- Main refuses to run when the rewritten routine trips the degenerate
    check of line 84. -/
theorem main_empty_of {b : Behavior} {fuel : Nat}
    (hcond : hasSub passL (replaceFill (generate_code_from_prompt (b.rawGen 0))) = true
      ∨ (replaceFill (generate_code_from_prompt (b.rawGen 0))).length < 30) :
    main b fuel = some .emptyGeneration := by
  simp only [main]
  rw [if_pos hcond]


/-! ## Selector-rewrite lemmas -/

theorem replaceFill_cons16 {c1 c2 c3 c4 c5 c6 c7 c8 c9 c10 c11 c12 c13 c14 c15 c16 : Char}
    {rest : List Char} :
    replaceFill (c1 :: c2 :: c3 :: c4 :: c5 :: c6 :: c7 :: c8 :: c9 :: c10 :: c11 :: c12 :: c13 :: c14 :: c15 :: c16 :: rest)
      = if [c1, c2, c3, c4, c5, c6, c7, c8, c9, c10, c11, c12, c13, c14, c15, c16] = fillInL then fillOutL ++ replaceFill rest
        else c1 :: replaceFill (c2 :: c3 :: c4 :: c5 :: c6 :: c7 :: c8 :: c9 :: c10 :: c11 :: c12 :: c13 :: c14 :: c15 :: c16 :: rest) := rfl

theorem replaceFill_cons_short {c1 : Char} {rest : List Char}
    (hs : ∀ (c2 c3 c4 c5 c6 c7 c8 c9 c10 c11 c12 c13 c14 c15 c16 : Char) (r : List Char),
        rest = c2 :: c3 :: c4 :: c5 :: c6 :: c7 :: c8 :: c9 :: c10 :: c11 :: c12 :: c13 :: c14 :: c15 :: c16 :: r → False) :
    replaceFill (c1 :: rest) = c1 :: replaceFill rest := by
  cases rest with
  | nil => rfl
  | cons c2 r2 =>
    cases r2 with
    | nil => rfl
    | cons c3 r3 =>
      cases r3 with
      | nil => rfl
      | cons c4 r4 =>
        cases r4 with
        | nil => rfl
        | cons c5 r5 =>
          cases r5 with
          | nil => rfl
          | cons c6 r6 =>
            cases r6 with
            | nil => rfl
            | cons c7 r7 =>
              cases r7 with
              | nil => rfl
              | cons c8 r8 =>
                cases r8 with
                | nil => rfl
                | cons c9 r9 =>
                  cases r9 with
                  | nil => rfl
                  | cons c10 r10 =>
                    cases r10 with
                    | nil => rfl
                    | cons c11 r11 =>
                      cases r11 with
                      | nil => rfl
                      | cons c12 r12 =>
                        cases r12 with
                        | nil => rfl
                        | cons c13 r13 =>
                          cases r13 with
                          | nil => rfl
                          | cons c14 r14 =>
                            cases r14 with
                            | nil => rfl
                            | cons c15 r15 =>
                              cases r15 with
                              | nil => rfl
                              | cons c16 r16 =>
                                exact absurd rfl (hs c2 c3 c4 c5 c6 c7 c8 c9 c10 c11 c12 c13 c14 c15 c16 r16)

theorem replaceFill_eq_self : ∀ {s : List Char},
    hasSub fillInL s = false → replaceFill s = s := by
  intro s
  induction s using replaceFill.induct with
  | case1 c1 c2 c3 c4 c5 c6 c7 c8 c9 c10 c11 c12 c13 c14 c15 c16 rest hcond ih =>
    intro h
    exfalso
    have hsw : startsWithL fillInL (c1 :: c2 :: c3 :: c4 :: c5 :: c6 :: c7 :: c8 :: c9 :: c10 :: c11 :: c12 :: c13 :: c14 :: c15 :: c16 :: rest) = true := by
      have hshape : (c1 :: c2 :: c3 :: c4 :: c5 :: c6 :: c7 :: c8 :: c9 :: c10 :: c11 :: c12 :: c13 :: c14 :: c15 :: c16 :: rest)
          = [c1, c2, c3, c4, c5, c6, c7, c8, c9, c10, c11, c12, c13, c14, c15, c16] ++ rest := rfl
      rw [hshape, hcond]
      exact startsWithL_self_append fillInL rest
    rw [hasSub, hsw] at h
    simp at h
  | case2 c1 c2 c3 c4 c5 c6 c7 c8 c9 c10 c11 c12 c13 c14 c15 c16 rest hcond ih =>
    intro h
    rw [replaceFill_cons16, if_neg hcond]
    exact congrArg (c1 :: ·) (ih (hasSub_tail h))
  | case3 c1 rest hs ih =>
    intro h
    rw [replaceFill_cons_short hs]
    exact congrArg (c1 :: ·) (ih (hasSub_tail h))
  | case4 => intro _; rfl

theorem hasSub_pass_fillIn (r : List Char) :
    hasSub passL (fillInL ++ r) = hasSub passL r :=
  hasSub_append_of_no_start (by decide)

theorem hasSub_fillIn_header (r : List Char) :
    hasSub fillInL (headerL ++ r) = hasSub fillInL r :=
  hasSub_append_of_no_start (by decide)

theorem replaceFill_cons_not_f : ∀ {s : List Char} {c : Char} {t : List Char},
    s = c :: t → c ≠ 'f' → replaceFill s = c :: replaceFill t := by
  intro s
  induction s using replaceFill.induct with
  | case1 c1 c2 c3 c4 c5 c6 c7 c8 c9 c10 c11 c12 c13 c14 c15 c16 rest hcond ih =>
    intro c t hst hc
    exfalso
    have hc1 : c1 = 'f' := by
      simp only [fillInL, List.cons.injEq] at hcond
      exact hcond.1
    have h1 : c1 = c := by
      injection hst
    exact hc (h1 ▸ hc1)
  | case2 c1 c2 c3 c4 c5 c6 c7 c8 c9 c10 c11 c12 c13 c14 c15 c16 rest hcond ih =>
    intro c t hst hc
    rw [replaceFill_cons16, if_neg hcond]
    injection hst with h1 h2
    rw [h1, h2]
  | case3 c1 rest hs ih =>
    intro c t hst hc
    rw [replaceFill_cons_short hs]
    injection hst with h1 h2
    rw [h1, h2]
  | case4 =>
    intro c t hst hc
    exact absurd hst (by simp)

theorem replaceFill_prefix_pass : ∀ {q t : List Char},
    (∀ c ∈ q, c ≠ 'f') → q <+: t → q <+: replaceFill t := by
  intro q
  induction q with
  | nil => intro t _ _; exact List.nil_prefix
  | cons c q ih =>
    intro t hq hpre
    obtain ⟨r, hr⟩ := hpre
    cases t with
    | nil => simp at hr
    | cons c0 t0 =>
      have hcc : c = c0 ∧ q ++ r = t0 := by
        rw [List.cons_append] at hr
        exact ⟨by injection hr, by injection hr⟩
      rw [replaceFill_cons_not_f rfl (hcc.1 ▸ hq c (by simp))]
      rw [← hcc.1]
      exact List.cons_prefix_cons.mpr
        ⟨rfl, ih (fun x hx => hq x (List.mem_cons_of_mem c hx)) ⟨r, hcc.2⟩⟩

theorem replaceFill_pass : ∀ {s : List Char},
    hasSub passL s = true → hasSub passL (replaceFill s) = true := by
  intro s
  induction s using replaceFill.induct with
  | case1 c1 c2 c3 c4 c5 c6 c7 c8 c9 c10 c11 c12 c13 c14 c15 c16 rest hcond ih =>
    intro h
    have hshape : (c1 :: c2 :: c3 :: c4 :: c5 :: c6 :: c7 :: c8 :: c9 :: c10 :: c11 :: c12 :: c13 :: c14 :: c15 :: c16 :: rest)
        = [c1, c2, c3, c4, c5, c6, c7, c8, c9, c10, c11, c12, c13, c14, c15, c16] ++ rest := rfl
    rw [replaceFill_cons16, if_pos hcond]
    rw [hshape, hcond, hasSub_pass_fillIn] at h
    exact hasSub_append_left fillOutL (ih h)
  | case2 c1 c2 c3 c4 c5 c6 c7 c8 c9 c10 c11 c12 c13 c14 c15 c16 rest hcond ih =>
    intro h
    rw [replaceFill_cons16, if_neg hcond]
    rw [hasSub] at h
    rcases Bool.or_eq_true_iff.mp h with hsw | ht
    · have hpre := replaceFill_prefix_pass (by decide) (startsWithL_iff.mp hsw)
      rw [replaceFill_cons16, if_neg hcond] at hpre
      rw [hasSub, startsWithL_iff.mpr hpre]
      simp
    · rw [hasSub, ih ht]
      simp
  | case3 c1 rest hs ih =>
    intro h
    rw [replaceFill_cons_short hs]
    rw [hasSub] at h
    rcases Bool.or_eq_true_iff.mp h with hsw | ht
    · have hpre := replaceFill_prefix_pass (by decide) (startsWithL_iff.mp hsw)
      rw [replaceFill_cons_short hs] at hpre
      rw [hasSub, startsWithL_iff.mpr hpre]
      simp
    · rw [hasSub, ih ht]
      simp
  | case4 => intro h; simp [hasSub, passL] at h

theorem replaceFill_header_short {g : List Char}
    (hh : startsWithL headerL g = true) (hlen : g.length < 30) :
    replaceFill g = g := by
  obtain ⟨r, hr⟩ := startsWithL_iff.mp hh
  apply replaceFill_eq_self
  rw [← hr, hasSub_fillIn_header]
  cases hv : hasSub fillInL r with
  | false => rfl
  | true =>
    exfalso
    have h16 := hasSub_length hv
    have hf : fillInL.length = 16 := rfl
    have hh20 : headerL.length = 20 := rfl
    rw [← hr, List.length_append, hh20] at hlen
    rw [hf] at h16
    omega

/-- Main refuses to run when the first *generated* routine (before the
    selector rewrite) is shorter than 30 characters. -/
theorem main_rejects_short {b : Behavior} {fuel : Nat}
    (hlen : (generate_code_from_prompt (b.rawGen 0)).length < 30) :
    main b fuel = some .emptyGeneration := by
  apply main_empty_of
  right
  rw [replaceFill_header_short (normalize_starts_header _) hlen]
  exact hlen

/-- Main refuses to run when the first generated routine contains the
    substring pass anywhere. -/
theorem main_rejects_pass {b : Behavior} {fuel : Nat}
    (hp : hasSub passL (generate_code_from_prompt (b.rawGen 0)) = true) :
    main b fuel = some .emptyGeneration :=
  main_empty_of (Or.inl (replaceFill_pass hp))

/-- A routine whose body (the lines after the entry-point header line)
    consists only of the no-op statement pass. -/
def onlyNoOpRoutine (g : List Char) : Prop :=
  (splitlines g).drop 1 ≠ [] ∧ ∀ l ∈ (splitlines g).drop 1, strip l = passL

instance (g : List Char) : Decidable (onlyNoOpRoutine g) := by
  unfold onlyNoOpRoutine
  infer_instance

theorem onlyNoOp_hasPass {g : List Char} (h : onlyNoOpRoutine g) :
    hasSub passL g = true := by
  obtain ⟨hne, hall⟩ := h
  cases hd : (splitlines g).drop 1 with
  | nil => exact absurd hd hne
  | cons l ls =>
    have hl : l ∈ (splitlines g).drop 1 := by rw [hd]; simp
    have hl2 : l ∈ splitlines g := List.mem_of_mem_drop hl
    have hstrip := hall l hl
    apply hasSub_iff.mpr
    have h1 : passL <:+: l := hstrip ▸ strip_infix_self l
    exact h1.trans (splitlines_infix_mem l hl2)


/-- The attempt index carried by an escaping fault. -/
def escIdx : EscFault → Nat
  | .acquire k _ => k
  | .screenshot k => k

/-- A fault escaping an invocation started at attempt k originates at an
    attempt of index at least k. -/
theorem run_esc_le {b : Behavior} : ∀ (fuel k : Nat) (c : List Char)
    (evs : List Event) (f : EscFault),
    run_automation b fuel k c = some (evs, some f) → k ≤ escIdx f := by
  intro fuel
  induction fuel with
  | zero => intro k c evs f h; rw [run_zero] at h; exact absurd h (by simp)
  | succ fuel ih =>
    intro k c evs f h
    rcases run_cases h with
        ⟨_, _, hesc⟩ | ⟨_, _, _, hesc⟩ | ⟨_, _, _, _, hesc⟩
      | ⟨_, _, _, _, _, hesc⟩ | ⟨msg, _, _, _, _, _, _, hesc⟩
      | ⟨msg, _, _, _, _, _, _, _, hesc⟩
      | ⟨msg, evs2, _, _, _, _, _, _, hrec, _⟩
    · simp only [Option.some.injEq] at hesc
      subst hesc; simp [escIdx]
    · simp only [Option.some.injEq] at hesc
      subst hesc; simp [escIdx]
    · simp only [Option.some.injEq] at hesc
      subst hesc; simp [escIdx]
    · exact absurd hesc (by simp)
    · simp only [Option.some.injEq] at hesc
      subst hesc; simp [escIdx]
    · exact absurd hesc (by simp)
    · exact Nat.le_of_succ_le (ih (k + 1) _ evs2 f hrec)

/-- Detect the blocking retry prompt of line 68 in a trace. -/
def isRetryPromptEvent : Event → Bool
  | .retryPrompt _ _ => true
  | _ => false

/-! ## Concrete translator responses and behaviors -/

/-- A well-formed single-statement routine response. -/
def rawGoto : List Char := "await page.goto(\"https://example.com\")".toList

/-- A corrected routine response used on a retry. -/
def rawFixed : List Char :=
  "await page.goto(\"https://example.com/login\")".toList

/-- A response that already declares the entry point and is fully clean. -/
def rawWellFormed : List Char :=
  "async def run(page):\n    await page.goto(\"https://example.com\")".toList

/-- A functional response filling a field whose selector mentions password. -/
def rawPassword : List Char :=
  "await page.fill(\"#password\", \"secret123\")".toList

/-- A response whose selector is rewritten by line 82 of main. -/
def rawFillEx : List Char :=
  "await page.fill(\"input[name=q]\", \"hello\")".toList

/-- The error message used by the concrete behaviors. -/
def msgBoom : List Char := "boom".toList

/-- Behavior: the first execution raises and the screenshot call raises too;
    the operator would have answered yes everywhere. -/
def bShotFault : Behavior :=
  ⟨fun _ => rawGoto, fun k => if k = 0 then some msgBoom else none,
   fun k => k == 0, fun _ => ['y'],
   fun _ => false, fun _ => false, fun _ => false, ['y']⟩

/-- Behavior: the first execution raises, the screenshot succeeds and the
    operator declines the retry. -/
def bDeclined : Behavior :=
  ⟨fun _ => rawGoto, fun k => if k = 0 then some msgBoom else none,
   fun _ => false, fun _ => ['n'],
   fun _ => false, fun _ => false, fun _ => false, ['y']⟩

/-- Behavior: every execution raises, every screenshot succeeds, and the
    operator accepts every retry. -/
def bPersistent : Behavior :=
  ⟨fun _ => rawGoto, fun _ => some msgBoom, fun _ => false,
   fun _ => ['y'], fun _ => false, fun _ => false, fun _ => false, ['y']⟩

/-- Behavior: browser context creation raises at attempt 0. -/
def bCtxFail : Behavior :=
  ⟨fun _ => rawGoto, fun _ => none, fun _ => false, fun _ => ['y'],
   fun _ => false, fun _ => true, fun _ => false, ['y']⟩

/-- Behavior: everything succeeds at attempt 0. -/
def bOk : Behavior :=
  ⟨fun _ => rawGoto, fun _ => none, fun _ => false, fun _ => ['y'],
   fun _ => false, fun _ => false, fun _ => false, ['y']⟩

/-- Behavior: page creation raises at attempt 0, after the browser was
    launched and the context created. -/
def bPageFail : Behavior :=
  ⟨fun _ => rawGoto, fun _ => none, fun _ => false, fun _ => ['y'],
   fun _ => false, fun _ => false, fun _ => true, ['y']⟩

/-- Behavior: the translator answers only the no-op statement. -/
def bNoOp : Behavior :=
  ⟨fun _ => "pass".toList, fun _ => none, fun _ => false, fun _ => ['y'],
   fun _ => false, fun _ => false, fun _ => false, ['y']⟩

/-- Behavior: the translator answers a functional routine that mentions
    password inside a longer identifier. -/
def bPassword : Behavior :=
  ⟨fun _ => rawPassword, fun _ => none, fun _ => false, fun _ => ['y'],
   fun _ => false, fun _ => false, fun _ => false, ['y']⟩

/-- Behavior: attempt 0 fails, the operator accepts, and the corrected
    routine of attempt 1 succeeds. -/
def bRetryOk : Behavior :=
  ⟨fun k => if k = 0 then rawGoto else rawFixed,
   fun k => if k = 0 then some msgBoom else none,
   fun _ => false, fun _ => ['y'],
   fun _ => false, fun _ => false, fun _ => false, ['y']⟩

/-- Behavior: attempt 0 fails, the operator accepts, and the translator
    answers only the no-op statement for the retry. -/
def bRetryDegenerate : Behavior :=
  ⟨fun k => if k = 0 then rawGoto else "pass".toList,
   fun k => if k = 0 then some msgBoom else none,
   fun _ => false, fun _ => ['y'],
   fun _ => false, fun _ => false, fun _ => false, ['y']⟩


/-! ## Claim theorems

Each claim of the design note is settled below against the embedding. -/

/-- The rewritten first routine generated from rawGoto. -/
def code0R : List Char := replaceFill (generate_code_from_prompt rawGoto)

/-- The retry routine generated from rawFixed (no rewrite applied). -/
def code1R : List Char := generate_code_from_prompt rawFixed

/-- The trace of bDeclined's single attempt. -/
def trD : List Event :=
  [.launch 0, .newContext 0, .newPage 0, .execRun 0 code0R,
   .execCaught 0 msgBoom, .screenshotSaved 0 screenshotPathL,
   .retryPrompt 0 (bDeclined.retryAnswer 0), .browserClose 0]

/-- The trace of bOk's single successful attempt. -/
def trOk : List Event :=
  [.launch 0, .newContext 0, .newPage 0, .execRun 0 code0R,
   .execOk 0, .browserClose 0]

/-- The trace of bShotFault's single attempt. -/
def trSF : List Event :=
  [.launch 0, .newContext 0, .newPage 0, .execRun 0 code0R,
   .execCaught 0 msgBoom, .browserClose 0]

/-- The full trace of bRetryOk: failed attempt 0, accepted retry,
    successful attempt 1. -/
def evsR : List Event :=
  [.launch 0, .newContext 0, .newPage 0, .execRun 0 code0R,
   .execCaught 0 msgBoom, .screenshotSaved 0 screenshotPathL,
   .retryPrompt 0 ['y'], .genRetryCode 1 code1R,
   .launch 1, .newContext 1, .newPage 1, .execRun 1 code1R,
   .execOk 1, .browserClose 1, .browserClose 0]

/-- The no-op retry routine of bRetryDegenerate. -/
def codePassN : List Char := generate_code_from_prompt ("pass".toList)

/-- The full trace of bRetryDegenerate: failed attempt 0, accepted retry,
    attempt 1 executes the degenerate routine. -/
def evsD : List Event :=
  [.launch 0, .newContext 0, .newPage 0, .execRun 0 code0R,
   .execCaught 0 msgBoom, .screenshotSaved 0 screenshotPathL,
   .retryPrompt 0 ['y'], .genRetryCode 1 codePassN,
   .launch 1, .newContext 1, .newPage 1, .execRun 1 codePassN,
   .execOk 1, .browserClose 1, .browserClose 0]

/-- C1, counterexample.  The claim states that any exception raised while
    executing the routine's statements is converted into a Failure outcome
    carrying non-null evidence and never escapes as an unhandled crash.  In
    behavior bShotFault the routine's exception is caught, but the screenshot
    call in line 65 then raises: no evidence is saved, the retry prompt is
    skipped, and the secondary fault escapes run_automation into main, which
    does not catch it — the process crashes, falsifying the claim as stated. -/
theorem C1_counterexample :
    main bShotFault 1 = some (.ran trSF (some (.screenshot 0)))
    ∧ (trSF.all fun e => !isRetryPromptEvent e) = true := by decide

/-- C1, amended.  Every exception raised while executing the routine's
    statements is caught at the engine boundary (line 62): the trace records
    the caught fault, and, provided the screenshot call itself succeeds, the
    evidence file is saved and the retry prompt is reached, so the failure
    outcome carrying the screenshot path drives the retry decision; no fault
    of this attempt escapes.  (Only when the screenshot itself raises does a
    fault escape, which is claim C4's subject.) -/
theorem C1_amended {b : Behavior} {fuel k : Nat} {c msg : List Char}
    {evs : List Event} {esc : Option EscFault}
    (h : run_automation b (fuel + 1) k c = some (evs, esc))
    (h1 : b.launchFail k = false) (h2 : b.contextFail k = false)
    (h3 : b.pageFail k = false) (he : b.execFault k = some msg)
    (hs : b.shotFault k = false) :
    Event.execCaught k msg ∈ evs
    ∧ Event.screenshotSaved k screenshotPathL ∈ evs
    ∧ Event.retryPrompt k (b.retryAnswer k) ∈ evs
    ∧ esc ≠ some (.screenshot k) := by
  rcases run_cases h with
      ⟨hl, _, _⟩ | ⟨_, hc2, _, _⟩ | ⟨_, _, hp, _, _⟩
    | ⟨_, _, _, hef, _, _⟩ | ⟨msg2, _, _, _, hef, hsf, _, _⟩
    | ⟨msg2, _, _, _, hef, hsf, _, hevs, hesc⟩
    | ⟨msg2, evs2, _, _, _, hef, hsf, _, hrec, hevs⟩
  · rw [hl] at h1; exact absurd h1 (by simp)
  · rw [hc2] at h2; exact absurd h2 (by simp)
  · rw [hp] at h3; exact absurd h3 (by simp)
  · rw [hef] at he; exact absurd he (by simp)
  · rw [hsf] at hs; exact absurd hs (by simp)
  · rw [hef] at he
    injection he with hmsg
    subst hmsg
    subst hevs
    refine ⟨by simp, by simp, by simp, ?_⟩
    rw [hesc]
    simp
  · rw [hef] at he
    injection he with hmsg
    subst hmsg
    subst hevs
    refine ⟨by simp, by simp, by simp, ?_⟩
    intro heq
    subst heq
    have := run_esc_le fuel (k + 1) _ evs2 _ hrec
    simp only [escIdx] at this
    omega

/-- C1, witness at bDeclined. -/
theorem C1_witness :
    run_automation bDeclined 1 0 code0R = some (trD, none)
    ∧ (Event.execCaught 0 msgBoom ∈ trD
      ∧ Event.screenshotSaved 0 screenshotPathL ∈ trD
      ∧ Event.retryPrompt 0 (bDeclined.retryAnswer 0) ∈ trD
      ∧ (none : Option EscFault) ≠ some (.screenshot 0)) := by
  have hrun : run_automation bDeclined 1 0 code0R = some (trD, none) := by decide
  exact ⟨hrun, C1_amended hrun rfl rfl rfl (by decide) rfl⟩

/-- C2.  The claim asks for a configurable retry bound N: after N accepted
    retries the loop must end with Abort even if the operator keeps
    accepting.  The code has no such bound: each accepted retry re-enters
    run_automation recursively (line 73).  Under behavior bPersistent — every
    attempt's execution raises, every screenshot succeeds, the operator
    accepts every retry — the recursion never terminates: the fuel semantics
    returns none at every depth, both for run_automation from any attempt and
    for main, so no Abort is ever reached. -/
theorem C2_unbounded_retry :
    (∀ (fuel k : Nat) (c : List Char),
      run_automation bPersistent fuel k c = none)
    ∧ (∀ fuel : Nat, main bPersistent fuel = none) := by
  have hrun : ∀ (fuel k : Nat) (c : List Char),
      run_automation bPersistent fuel k c = none := by
    intro fuel
    induction fuel with
    | zero => intro k c; rfl
    | succ fuel ih =>
      intro k c
      exact run_accepted_none rfl rfl rfl
        (show bPersistent.execFault k = some msgBoom from rfl) rfl
        (show answerNorm (bPersistent.retryAnswer k) = yesL from rfl) (ih _ _)
  refine ⟨hrun, fun fuel => ?_⟩
  simp only [main]
  rw [if_neg (by decide), if_pos (by decide), hrun fuel 0 _]

/-- C3, counterexample.  The claim states the browser close occurs exactly
    once on every exit path, including a resource-acquisition failure midway.
    In behavior bCtxFail context creation (line 48) raises after the browser
    was launched; since lines 47-49 precede the try block, the finally clause
    never runs: the trace shows the launch but contains no browser close —
    the launched browser is never released by run_automation. -/
theorem C3_counterexample :
    run_automation bCtxFail 1 0 code0R
      = some ([.launch 0], some (.acquire 0 1))
    ∧ List.count (Event.browserClose 0) [Event.launch 0] = 0
    ∧ Event.launch 0 ∈ [Event.launch 0] := by decide

/-- C3, amended.  When browser, context and page creation all succeed at an
    attempt, that attempt's browser is closed exactly once on every exit
    path — success, declined retry, accepted retry (however deep the nested
    attempts go), and even while a screenshot fault propagates.  But on a
    resource-acquisition failure midway — context creation raising after the
    launch, or page creation raising after the launch and the context —
    nothing is closed: the acquired resources appear in the trace and the
    close count is zero (the leak). -/
theorem C3_amended {b : Behavior} {fuel k : Nat} {c : List Char}
    {evs : List Event} {esc : Option EscFault}
    (h : run_automation b fuel k c = some (evs, esc)) :
    (b.launchFail k = false → b.contextFail k = false → b.pageFail k = false →
      evs.count (.browserClose k) = 1)
    ∧ (b.launchFail k = false → b.contextFail k = true →
      Event.launch k ∈ evs ∧ evs.count (.browserClose k) = 0)
    ∧ (b.launchFail k = false → b.contextFail k = false → b.pageFail k = true →
      Event.launch k ∈ evs ∧ Event.newContext k ∈ evs
        ∧ evs.count (.browserClose k) = 0) := by
  refine ⟨fun h1 h2 h3 => run_close_once fuel k c evs esc h h1 h2 h3, ?_, ?_⟩
  · intro h1 h2
    cases fuel with
    | zero => rw [run_zero] at h; exact absurd h (by simp)
    | succ fuel =>
      rw [run_contextFail h1 h2] at h
      simp only [Option.some.injEq, Prod.mk.injEq] at h
      rw [← h.1]
      exact ⟨by simp, by simp [List.count_cons]⟩
  · intro h1 h2 h3
    cases fuel with
    | zero => rw [run_zero] at h; exact absurd h (by simp)
    | succ fuel =>
      rw [run_pageFail h1 h2 h3] at h
      simp only [Option.some.injEq, Prod.mk.injEq] at h
      rw [← h.1]
      exact ⟨by simp, by simp, by simp [List.count_cons]⟩

/-- C3, witness: the exactly-once conjunct at bOk and the page-creation
    leak conjunct at bPageFail. -/
theorem C3_witness :
    run_automation bOk 1 0 code0R = some (trOk, none)
    ∧ trOk.count (.browserClose 0) = 1
    ∧ run_automation bPageFail 1 0 code0R
        = some ([.launch 0, .newContext 0], some (.acquire 0 2))
    ∧ Event.launch 0 ∈ ([.launch 0, .newContext 0] : List Event)
    ∧ Event.newContext 0 ∈ ([.launch 0, .newContext 0] : List Event)
    ∧ ([.launch 0, .newContext 0] : List Event).count (.browserClose 0) = 0 := by
  have hrun : run_automation bOk 1 0 code0R = some (trOk, none) := by decide
  have hrun2 : run_automation bPageFail 1 0 code0R
      = some ([.launch 0, .newContext 0], some (.acquire 0 2)) := by decide
  have h2 := (C3_amended hrun2).2.2 rfl rfl rfl
  exact ⟨hrun, (C3_amended hrun).1 rfl rfl rfl, hrun2, h2.1, h2.2.1, h2.2.2⟩

/-- C4, counterexample.  The claim states a screenshot fault after an
    execution failure is logged and does not escalate, the original failure
    still driving the retry decision.  In behavior bShotFault the screenshot
    call raises and the fault does escalate: it escapes run_automation, the
    retry prompt never happens, and only the finally clause (closing the
    browser) still runs. -/
theorem C4_counterexample :
    run_automation bShotFault 1 0 code0R = some (trSF, some (.screenshot 0))
    ∧ (trSF.all fun e => !isRetryPromptEvent e) = true
    ∧ Event.browserClose 0 ∈ trSF := by decide

/-- C4, amended.  When the screenshot call raises after a caught execution
    failure, the secondary fault is not contained: it propagates out of
    run_automation as the invocation's escaping fault, no retry prompt occurs
    in the entire trace, and the retry decision is skipped; the caught
    primary failure and the finally-clause browser close are still
    recorded. -/
theorem C4_amended {b : Behavior} {fuel k : Nat} {c msg : List Char}
    {evs : List Event} {esc : Option EscFault}
    (h : run_automation b (fuel + 1) k c = some (evs, esc))
    (h1 : b.launchFail k = false) (h2 : b.contextFail k = false)
    (h3 : b.pageFail k = false) (he : b.execFault k = some msg)
    (hs : b.shotFault k = true) :
    esc = some (.screenshot k)
    ∧ (∀ e ∈ evs, isRetryPromptEvent e = false)
    ∧ Event.execCaught k msg ∈ evs
    ∧ Event.browserClose k ∈ evs := by
  rcases run_cases h with
      ⟨hl, _, _⟩ | ⟨_, hc2, _, _⟩ | ⟨_, _, hp, _, _⟩
    | ⟨_, _, _, hef, _, _⟩ | ⟨msg2, _, _, _, hef, hsf, hevs, hesc⟩
    | ⟨msg2, _, _, _, hef, hsf, _, _, _⟩
    | ⟨msg2, evs2, _, _, _, hef, hsf, _, _, _⟩
  · rw [hl] at h1; exact absurd h1 (by simp)
  · rw [hc2] at h2; exact absurd h2 (by simp)
  · rw [hp] at h3; exact absurd h3 (by simp)
  · rw [hef] at he; exact absurd he (by simp)
  · rw [hef] at he
    injection he with hmsg
    subst hmsg
    subst hevs
    refine ⟨hesc, ?_, by simp, by simp⟩
    intro e hee
    fin_cases hee <;> rfl
  · rw [hsf] at hs; exact absurd hs (by simp)
  · rw [hsf] at hs; exact absurd hs (by simp)

/-- C4, witness at bShotFault. -/
theorem C4_witness :
    run_automation bShotFault 1 0 code0R = some (trSF, some (.screenshot 0))
    ∧ (some (EscFault.screenshot 0) = some (.screenshot 0)
      ∧ (∀ e ∈ trSF, isRetryPromptEvent e = false)
      ∧ Event.execCaught 0 msgBoom ∈ trSF
      ∧ Event.browserClose 0 ∈ trSF) := by
  have hrun : run_automation bShotFault 1 0 code0R
      = some (trSF, some (.screenshot 0)) := by decide
  exact ⟨hrun, C4_amended hrun rfl rfl rfl (by decide) rfl⟩

/-- C5.  For every behavior whose first normalized routine is shorter than
    the 30-character threshold or consists only of the no-op statement pass,
    main prints the degenerate-generation notice and returns: the result is
    emptyGeneration for every fuel, so run_automation is never invoked and no
    browser session is created.  (The check in line 84 runs on the routine
    after the line-82 rewrite; the rewrite cannot create or destroy a pass
    occurrence and cannot apply at all to a routine shorter than 30
    characters, so the degenerate routine is always rejected.) -/
theorem C5_degenerate_rejected {b : Behavior} {fuel : Nat}
    (h : (generate_code_from_prompt (b.rawGen 0)).length < 30
      ∨ onlyNoOpRoutine (generate_code_from_prompt (b.rawGen 0))) :
    main b fuel = some .emptyGeneration := by
  rcases h with h | h
  · exact main_rejects_short h
  · exact main_rejects_pass (onlyNoOp_hasPass h)

/-- C5, witness at bNoOp. -/
theorem C5_witness :
    ((generate_code_from_prompt (bNoOp.rawGen 0)).length < 30
      ∨ onlyNoOpRoutine (generate_code_from_prompt (bNoOp.rawGen 0)))
    ∧ main bNoOp 1 = some .emptyGeneration :=
  ⟨Or.inr (by decide), C5_degenerate_rejected (Or.inr (by decide))⟩

/-- C6.  For every raw translator output whose cleaned text (fence markers
    and surrounding whitespace removed, the text the entry-point check of
    line 39 actually inspects) does not begin with the entry-point header,
    the normalizer produces a routine whose lines are exactly the synthesized
    header followed by every line of the cleaned input, each indented by four
    spaces, in the original order. -/
theorem C6_wrap_lines {raw : List Char}
    (h : startsWithL headerL (cleanText raw) = false) :
    splitlines (generate_code_from_prompt raw)
      = headerL :: (splitlines (cleanText raw)).map (fun l => indent4 ++ l) := by
  rw [normalize_wrap_of h, splitlines_wrap]

/-- C6, witness at rawGoto. -/
theorem C6_witness :
    startsWithL headerL (cleanText rawGoto) = false
    ∧ splitlines (generate_code_from_prompt rawGoto)
        = headerL :: (splitlines (cleanText rawGoto)).map (fun l => indent4 ++ l) :=
  ⟨by decide, C6_wrap_lines (by decide)⟩

/-- C7, counterexample.  The claim says normalization returns well-formed
    input unchanged and is idempotent on its own output.  Both parts fail as
    stated: the input consisting of the header followed by a newline already
    contains a correctly declared entry point yet is changed (the strip in
    line 37 removes the newline); and on the empty response the first pass
    yields the header plus a newline while the second pass strips that
    newline, so normalization applied to its own output changes the text. -/
theorem C7_counterexample :
    generate_code_from_prompt ("async def run(page):\n".toList)
        ≠ "async def run(page):\n".toList
    ∧ generate_code_from_prompt (generate_code_from_prompt [])
        ≠ generate_code_from_prompt [] := by decide

/-- C7, amended.  Normalization returns unchanged exactly the inputs already
    in normal form: every raw output that begins with the entry-point header
    and equals its own cleaned text (no fence markers, no surrounding
    whitespace) is returned unchanged; and normalization is idempotent on
    every input whose cleaned text is nonempty (inputs cleaning to the empty
    text normalize first to the bare header plus newline and then to the bare
    header). -/
theorem C7_amended :
    (∀ raw : List Char, cleanText raw = raw → startsWithL headerL raw = true →
      generate_code_from_prompt raw = raw)
    ∧ (∀ x : List Char, cleanText x ≠ [] →
      generate_code_from_prompt (generate_code_from_prompt x)
        = generate_code_from_prompt x) :=
  ⟨fun _ h1 h2 => normalize_unchanged_of h1 h2, fun _ hx => normalize_idem_of hx⟩

/-- C7, witness: an already-normal input is returned unchanged, and
    normalization is idempotent at a nonempty cleaned input. -/
theorem C7_witness :
    (cleanText rawWellFormed = rawWellFormed
      ∧ startsWithL headerL rawWellFormed = true
      ∧ generate_code_from_prompt rawWellFormed = rawWellFormed)
    ∧ (cleanText rawGoto ≠ []
      ∧ generate_code_from_prompt (generate_code_from_prompt rawGoto)
          = generate_code_from_prompt rawGoto) :=
  ⟨⟨by decide, by decide, C7_amended.1 rawWellFormed (by decide) (by decide)⟩,
   ⟨by decide, C7_amended.2 rawGoto (by decide)⟩⟩

/-- C8.  The degenerate check of line 84 rejects any first-generated routine
    whose text contains the substring pass anywhere — also inside longer
    identifiers such as password — or whose total length is below 30
    characters: main prints the notice and returns without executing, even
    for a well-formed functional action sequence.  (Stated on the routine the
    normalizer produced; the line-82 rewrite preserves pass occurrences and
    leaves sub-30-character routines untouched.) -/
theorem C8_pass_or_short_rejected {b : Behavior} {fuel : Nat}
    (h : hasSub passL (generate_code_from_prompt (b.rawGen 0)) = true
      ∨ (generate_code_from_prompt (b.rawGen 0)).length < 30) :
    main b fuel = some .emptyGeneration := by
  rcases h with h | h
  · exact main_rejects_pass h
  · exact main_rejects_short h

/-- C8, witness: a functional fill routine mentioning password is refused. -/
theorem C8_witness :
    hasSub passL (generate_code_from_prompt (bPassword.rawGen 0)) = true
    ∧ main bPassword 1 = some .emptyGeneration :=
  ⟨by decide, C8_pass_or_short_rejected (Or.inl (by decide))⟩

/-- C9.  In every run started by main, the routine executed at attempt 0 is
    the normalizer's output with every occurrence of the input-name selector
    rewritten to the textarea-name selector (line 82), while every routine
    executed at a retry attempt is exactly the normalizer's output for that
    attempt with no rewrite applied; and the rewrite can change the routine,
    exhibited on a concrete fill routine. -/
theorem C9_rewrite_only_first {b : Behavior} {fuel : Nat} {evs : List Event}
    {esc : Option EscFault} (h : main b fuel = some (.ran evs esc)) :
    (∀ c, Event.execRun 0 c ∈ evs
      → c = replaceFill (generate_code_from_prompt (b.rawGen 0)))
    ∧ (∀ k c, Event.execRun k c ∈ evs → 1 ≤ k
      → c = generate_code_from_prompt (b.rawGen k))
    ∧ replaceFill (generate_code_from_prompt rawFillEx)
        ≠ generate_code_from_prompt rawFillEx := by
  have hr := main_ran_inv h
  refine ⟨?_, ?_, by decide⟩
  · intro c hc
    rcases run_execRun_codes fuel 0 _ evs esc hr 0 c hc with ⟨_, hcj⟩ | ⟨hk, _⟩
    · exact hcj
    · omega
  · intro k c hc hk
    rcases run_execRun_codes fuel 0 _ evs esc hr k c hc with ⟨hj, _⟩ | ⟨_, hcj⟩
    · omega
    · exact hcj

/-- C9, witness at bRetryOk: the attempt-0 code is the rewritten first
    routine, the attempt-1 code is the raw normalizer output. -/
theorem C9_witness :
    main bRetryOk 2 = some (.ran evsR none)
    ∧ code0R = replaceFill (generate_code_from_prompt (bRetryOk.rawGen 0))
    ∧ code1R = generate_code_from_prompt (bRetryOk.rawGen 1) := by
  have hm : main bRetryOk 2 = some (.ran evsR none) := by decide
  have hc := C9_rewrite_only_first hm
  exact ⟨hm, hc.1 code0R (by decide), hc.2.1 1 code1R (by decide) (by decide)⟩

/-- C10.  A routine generated during an accepted retry is handed directly to
    a new execution with no degenerate-routine check: even when the retry
    routine is shorter than the 30-character threshold or consists only of
    the no-op statement, it is generated and passed on, and as soon as
    resource acquisition succeeds at the retry attempt it is executed. -/
theorem C10_retry_unchecked {b : Behavior} {fuel k : Nat} {c msg : List Char}
    {evs : List Event} {esc : Option EscFault}
    (h : run_automation b (fuel + 1) k c = some (evs, esc))
    (h1 : b.launchFail k = false) (h2 : b.contextFail k = false)
    (h3 : b.pageFail k = false) (he : b.execFault k = some msg)
    (hs : b.shotFault k = false) (ha : answerNorm (b.retryAnswer k) = yesL)
    (_hdeg : (generate_code_from_prompt (b.rawGen (k + 1))).length < 30
      ∨ onlyNoOpRoutine (generate_code_from_prompt (b.rawGen (k + 1)))) :
    Event.genRetryCode (k + 1) (generate_code_from_prompt (b.rawGen (k + 1))) ∈ evs
    ∧ (b.launchFail (k + 1) = false → b.contextFail (k + 1) = false
      → b.pageFail (k + 1) = false
      → Event.execRun (k + 1) (generate_code_from_prompt (b.rawGen (k + 1))) ∈ evs) := by
  rcases run_cases h with
      ⟨hl, _, _⟩ | ⟨_, hc2, _, _⟩ | ⟨_, _, hp, _, _⟩
    | ⟨_, _, _, hef, _, _⟩ | ⟨msg2, _, _, _, hef, hsf, _, _⟩
    | ⟨msg2, _, _, _, hef, hsf, han, _, _⟩
    | ⟨msg2, evs2, _, _, _, hef, hsf, _, hrec, hevs⟩
  · rw [hl] at h1; exact absurd h1 (by simp)
  · rw [hc2] at h2; exact absurd h2 (by simp)
  · rw [hp] at h3; exact absurd h3 (by simp)
  · rw [hef] at he; exact absurd he (by simp)
  · rw [hsf] at hs; exact absurd hs (by simp)
  · exact absurd ha han
  · subst hevs
    constructor
    · simp
    · intro g1 g2 g3
      cases fuel with
      | zero => rw [run_zero] at hrec; exact absurd hrec (by simp)
      | succ m =>
        have hmem := run_execRun_mem hrec g1 g2 g3
        exact List.mem_append_left _
          (List.mem_append_right _ (List.mem_cons_of_mem _ hmem))

/-- C10, witness at bRetryDegenerate: the no-op retry routine is generated
    and executed. -/
theorem C10_witness :
    run_automation bRetryDegenerate 2 0 code0R = some (evsD, none)
    ∧ ((generate_code_from_prompt (bRetryDegenerate.rawGen 1)).length < 30
      ∨ onlyNoOpRoutine (generate_code_from_prompt (bRetryDegenerate.rawGen 1)))
    ∧ Event.genRetryCode 1 (generate_code_from_prompt (bRetryDegenerate.rawGen 1)) ∈ evsD
    ∧ Event.execRun 1 (generate_code_from_prompt (bRetryDegenerate.rawGen 1)) ∈ evsD := by
  have hrun : run_automation bRetryDegenerate 2 0 code0R = some (evsD, none) := by
    decide
  have hc := C10_retry_unchecked hrun rfl rfl rfl
    (show bRetryDegenerate.execFault 0 = some msgBoom from rfl) rfl (by decide)
    (Or.inl (by decide))
  exact ⟨hrun, Or.inl (by decide), hc.1, hc.2 rfl rfl rfl⟩

end Automate
